import Mathlib

/-!
Verification of core algorithms of the buildkite agent, shallowly embedded
in Lean. Go strings are modelled as lists of characters (`Str`), Go maps as
association lists (iteration order of a Go map is unspecified; the
association-list order stands in for it, and every property proved here is
insensitive to that order). Each Go function is translated structurally
from its source file.
-/

/-- Go strings, modelled as lists of characters. -/
abbrev Str := List Char

/-- Convert a Lean string literal to the `Str` model. -/
def str (s : String) : Str := s.toList

/-- Model of Go `unicode.IsSpace`: the Unicode white-space property
(Latin-1 range as listed in the Go source, plus the White_Space code
points outside Latin-1). -/
def isGoSpace (c : Char) : Bool :=
  c.toNat == 0x20 || c.toNat == 0x09 || c.toNat == 0x0a || c.toNat == 0x0b ||
  c.toNat == 0x0c || c.toNat == 0x0d || c.toNat == 0x85 || c.toNat == 0xa0 ||
  c.toNat == 0x1680 || (decide (0x2000 ≤ c.toNat) && decide (c.toNat ≤ 0x200a)) ||
  c.toNat == 0x2028 || c.toNat == 0x2029 || c.toNat == 0x202f ||
  c.toNat == 0x205f || c.toNat == 0x3000

/-- Drop matching characters from the end of a list. -/
def dropEndWhile (p : Char → Bool) (s : Str) : Str :=
  (s.reverse.dropWhile p).reverse

/-- Model of Go `strings.TrimSpace`. -/
def goTrimSpace (s : Str) : Str :=
  dropEndWhile isGoSpace (s.dropWhile isGoSpace)

/-- Model of Go `strings.Trim` with a cutset of characters. -/
def goTrimCut (cut : List Char) (s : Str) : Str :=
  dropEndWhile (fun c => cut.contains c) (s.dropWhile (fun c => cut.contains c))

/-- Model of Go `strings.HasPrefix`. -/
def goStartsWith (pat s : Str) : Bool := pat.isPrefixOf s

/-- Model of Go `strings.HasSuffix`. -/
def goEndsWith (pat s : Str) : Bool := pat.isSuffixOf s

/-- Model of Go `strings.Replace(s, pat, rep, -1)`: replace every
non-overlapping occurrence of `pat`, scanning left to right. (The agent
never calls it with an empty pattern; for an empty pattern this model
leaves the string unchanged.) -/
def replaceAllFuel (pat rep : Str) : Nat → Str → Str
  | 0, s => s
  | _ + 1, [] => []
  | fuel + 1, c :: rest =>
    if pat ≠ [] ∧ pat.isPrefixOf (c :: rest) then
      rep ++ replaceAllFuel pat rep fuel (rest.drop (pat.length - 1))
    else
      c :: replaceAllFuel pat rep fuel rest

def replaceAll (pat rep s : Str) : Str := replaceAllFuel pat rep s.length s

/-- Byte-wise ≤ on strings (Go `sort.Strings` order; they agree on the
ASCII strings this development sorts). -/
def lexLeb : Str → Str → Bool
  | [], _ => true
  | _ :: _, [] => false
  | a :: as, b :: bs =>
    if a.toNat < b.toNat then true
    else if a.toNat = b.toNat then lexLeb as bs
    else false

/-- The ≤ relation used to model Go `sort.Strings`. -/
def strLe (a b : Str) : Prop := lexLeb a b = true

instance : DecidableRel strLe := fun a b =>
  inferInstanceAs (Decidable (lexLeb a b = true))

/-- Model of Go `sort.Strings` (the sort order, which is all the source
relies on; stability is irrelevant because equal strings are identical). -/
def sortStrings (l : List Str) : List Str := List.insertionSort strLe l

/-- The model fixes `runtime.GOOS` to a POSIX platform; the Windows-only
branch of `Environment.Set` (upper-casing keys) is dead under it. -/
def runtimeGoosWindows : Bool := false

/-- Raw Go map assignment `m[k] = v` on the association-list model of a
map: replace the binding of `k` if present, else add one. -/
def mapAssign : List (Str × Str) → Str → Str → List (Str × Str)
  | [], k, v => [(k, v)]
  | p :: rest, k, v => if p.1 = k then (k, v) :: rest else p :: mapAssign rest k v

/-- Raw Go map read `m[k]` distinguishing presence, for stating map
equality (Go `reflect.DeepEqual` on maps). -/
def mapIndex (m : List (Str × Str)) (k : Str) : Option Str :=
  (m.find? (fun p => p.1 = k)).map (fun p => p.2)

/-- Model of `shell.Environment` (environment.go): a Go map from string
to string. -/
structure Environment where
  env : List (Str × Str)
deriving DecidableEq

namespace Environment

/-- The empty environment (`make(map[string]string)`). -/
def empty : Environment := ⟨[]⟩

/-- `Environment.Get`: Go map read; missing keys yield the zero value `""`. -/
def Get (e : Environment) (key : Str) : Str := (mapIndex e.env key).getD []

/-- Presence-aware read (the observable for Go map equality). -/
def find (e : Environment) (key : Str) : Option Str := mapIndex e.env key

/-- The key normalization performed by `Environment.Set`: trim space;
upper-case on Windows only. -/
def setKeyNorm (key : Str) : Str :=
  let key := goTrimSpace key
  if runtimeGoosWindows then key.map Char.toUpper else key

/-- The value normalization performed by `Environment.Set`: trim space;
if the trimmed value both starts and ends with `"`, or both starts and
ends with `'`, strip all leading/trailing quote characters and expand the
escape sequences `\"` and `\n`. -/
def setValueNorm (value : Str) : Str :=
  let value := goTrimSpace value
  if (goStartsWith (str "\"") value && goEndsWith (str "\"") value)
      || (goStartsWith (str "'") value && goEndsWith (str "'") value) then
    let value := goTrimCut ['"', '\''] value
    let value := replaceAll (str "\\\"") (str "\"") value
    replaceAll (str "\\n") (str "\n") value
  else value

/-- `Environment.Set` (environment.go lines 82-109). -/
def Set (e : Environment) (key value : Str) : Environment :=
  ⟨mapAssign e.env (setKeyNorm key) (setValueNorm value)⟩

/-- `Environment.Copy` (environment.go lines 148-156): copies every raw
map entry verbatim; no call to `Set`. -/
def Copy (e : Environment) : Environment := ⟨e.env⟩

/-- `Environment.Merge` (environment.go lines 137-145): copy, then `Set`
each entry of the other environment. -/
def Merge (e other : Environment) : Environment :=
  other.env.foldl (fun c p => c.Set p.1 p.2) e.Copy

/-- `Environment.Diff` (environment.go lines 124-134): `Set` into a fresh
environment every entry whose value differs from `other.Get` (with Go's
zero-value read). -/
def Diff (e other : Environment) : Environment :=
  e.env.foldl (fun d p => if other.Get p.1 ≠ p.2 then d.Set p.1 p.2 else d) empty

/-- `Environment.ToSlice` (environment.go lines 159-169): render every
entry as `KEY=VALUE` and sort. -/
def ToSlice (e : Environment) : List Str :=
  sortStrings (e.env.map (fun p => p.1 ++ '=' :: p.2))

end Environment

/-- Character class of Go regex `[a-zA-Z0-9_]` (`Char.isAlpha`/`isDigit`
are exactly the ASCII ranges of the Go classes). -/
def isWordChar (c : Char) : Bool := c.isAlpha || c.isDigit || c == '_'

/-- Model of matching `EnvironmentVariableLineRegex`, the anchored Go
regex `\A([a-zA-Z]+[a-zA-Z0-9_]*)=(.+)\z` (environment.go line 16), and
extraction of its two groups. The match is deterministic: group 1 is a
run of `[a-zA-Z0-9_]` characters starting at position 0, none of which
can be `=`, so the only candidate is the maximal such run, which must be
followed by `=`; group 1 must begin with a letter, and group 2 (`.+`)
must be non-empty and free of `\n` and reach the end of the line. -/
def parseEnvLine (l : Str) : Option (Str × Str) :=
  match l.takeWhile isWordChar, l.drop (l.takeWhile isWordChar).length with
  | [], _ => none
  | c :: _, '=' :: v =>
    if c.isAlpha ∧ v ≠ [] ∧ '\n' ∉ v then some (l.takeWhile isWordChar, v) else none
  | _ :: _, _ => none

/-- The accumulator loop of `EnvironmentFromSlice` (environment.go lines
25-54): `ck` is `currentKeyName`, `cs` is `currentValueSlice`.  A matching
line first flushes the pending variable (when both are non-empty), then
starts a new one; a non-matching line is appended to the pending value
when a variable is open.  At the end the pending variable is flushed.
(The stray `fmt.Println` debug lines have no semantic effect.) -/
def fromSliceCore : List Str → Str → List Str → Environment → Environment
  | [], ck, cs, e =>
    if ck ≠ [] ∧ cs ≠ [] then e.Set ck (List.intercalate (str "\n") cs) else e
  | l :: rest, ck, cs, e =>
    match parseEnvLine l with
    | some (k, v) =>
      if ck ≠ [] ∧ cs ≠ [] then
        fromSliceCore rest k [v] (e.Set ck (List.intercalate (str "\n") cs))
      else
        fromSliceCore rest k (cs ++ [v]) e
    | none =>
      if ck ≠ [] then fromSliceCore rest ck (cs ++ [l]) e
      else fromSliceCore rest ck cs e

/-- `EnvironmentFromSlice` (environment.go lines 19-57). -/
def EnvironmentFromSlice (s : List Str) : Environment :=
  fromSliceCore s [] [] Environment.empty

/-- A key of the shape the line regex accepts: non-empty, a letter first,
letters/digits/underscores throughout. -/
def goodEnvKey (k : Str) : Bool :=
  match k with
  | [] => false
  | c :: rest => c.isAlpha && (c :: rest).all isWordChar

/-- A stored value the round trip can carry: non-empty, free of newlines,
and a fixed point of the `Set` value normalization. -/
def goodEnvVal (v : Str) : Bool :=
  decide (v ≠ []) && decide ('\n' ∉ v) && decide (Environment.setValueNorm v = v)

/-- An element of a `[]interface{}` configuration value: the `switch` of
plugin.go lines 291-299 emits strings and `json.Number`s (carried as
their literal text) and skips everything else. -/
inductive ConfigElem where
  | s (v : Str)
  | num (v : Str)
  | otherElem
deriving DecidableEq

/-- Configuration values as produced by the JSON decoder with `UseNumber`
(plugin.go `CreatePluginsFromJSON`): strings, booleans, `json.Number`
(carried as its literal text), `[]string`, `[]interface{}`, and anything
else. -/
inductive ConfigValue where
  | s (v : Str)
  | b (v : Bool)
  | num (v : Str)
  | strList (vs : List Str)
  | list (vs : List ConfigElem)
  | other
deriving DecidableEq

/-- `agent.Plugin` (plugin.go lines 15-31). -/
structure Plugin where
  Location : Str
  Version : Str
  Scheme : Str
  Authentication : Str
  Configuration : List (Str × ConfigValue)
deriving DecidableEq

/-- A write to a Go `map[string]struct{}` that may be nil: writing to a
nil map is a runtime panic ("assignment to entry in nil map"), modelled
as `none`. -/
def nilMapWrite (m : Option (List Str)) (k : Str) : Option (List Str) :=
  match m with
  | none => none
  | some s => some (if k ∈ s then s else s ++ [k])

/-- A read from a possibly-nil Go map: reading a nil map is permitted and
finds nothing. -/
def nilMapHas (m : Option (List Str)) (k : Str) : Bool :=
  match m with
  | none => false
  | some s => decide (k ∈ s)

/-- The first loop of `MergePlugins`: record each agent plugin's location
in `pluginMap` and append the plugin to the result. The map write can
panic (propagated as `none`). -/
def mergeAgentLoop : List Plugin → Option (List Str) → List Plugin →
    Option (Option (List Str) × List Plugin)
  | [], m, res => some (m, res)
  | p :: rest, m, res =>
    match nilMapWrite m p.Location with
    | none => none
    | some s => mergeAgentLoop rest (some s) (res ++ [p])

/-- `MergePlugins` (plugin.go lines 176-194). `var pluginMap
map[string]struct{}` declares a nil map and never initializes it, so the
first write in the agent-plugin loop panics; a panic is modelled as
`none`. -/
def MergePlugins (jobPlugins agentPlugins : List Plugin) : Option (List Plugin) :=
  match mergeAgentLoop agentPlugins none [] with
  | none => none
  | some (m, res) =>
    some (jobPlugins.foldl
      (fun r p => if nilMapHas m p.Location then r else r ++ [p]) res)

/-- Character class of Go regex `\s` (ASCII by default): tab, newline,
form feed, carriage return, space. -/
def isRegexSpace (c : Char) : Bool :=
  c.toNat == 0x09 || c.toNat == 0x0a || c.toNat == 0x0c || c.toNat == 0x0d ||
  c.toNat == 0x20

/-- Replace every maximal run of characters matching `p` by the single
character `r` (the effect of replacing regex `X+` by a one-character
string, leftmost-first as in Go). -/
def collapseRunsAux (p : Char → Bool) (r : Char) : Bool → Str → Str
  | _, [] => []
  | inRun, c :: rest =>
    if p c then
      if inRun then collapseRunsAux p r true rest
      else r :: collapseRunsAux p r true rest
    else c :: collapseRunsAux p r false rest

def collapseRuns (p : Char → Bool) (r : Char) (s : Str) : Str :=
  collapseRunsAux p r false s

/-- The effect of Go `toDashRegex.ReplaceAllString(s, "_")` with
`toDashRegex` = `-|\s+` (plugin.go line 269): each dash and each maximal
whitespace run becomes one underscore, scanning leftmost-first. -/
def dashWsAux : Bool → Str → Str
  | _, [] => []
  | inWs, c :: rest =>
    if c = '-' then '_' :: dashWsAux false rest
    else if isRegexSpace c then
      if inWs then dashWsAux true rest else '_' :: dashWsAux true rest
    else c :: dashWsAux false rest

def dashWsToUnderscore (s : Str) : Str := dashWsAux false s

/-- The effect of replacing regex `_+` by `_` (plugin.go line 271). -/
def underscoreCollapse (s : Str) : Str := collapseRuns (fun c => c == '_') '_' s

/-- Model of Go `strings.Split` by a one-character separator. The result
is always non-empty. -/
def splitOnChar (t : Char) : Str → List Str
  | [] => [[]]
  | c :: rest =>
    if c = t then [] :: splitOnChar t rest
    else (c :: (splitOnChar t rest).headI) :: (splitOnChar t rest).tail

/-- `Plugin.Name` (plugin.go lines 197-214): last location segment,
lower-cased, whitespace runs collapsed, non-alphanumerics dashed, with
the well-known repository suffixes removed. -/
def PluginName (p : Plugin) : Str :=
  if p.Location ≠ [] then
    let name := (splitOnChar '/' p.Location).getLastD []
    let name := name.map Char.toLower
    let name := collapseRuns isRegexSpace ' ' name
    let name := name.map (fun c => if c.isAlpha || c.isDigit then c else '-')
    let name := replaceAll (str "-buildkite-plugin-git") [] name
    let name := replaceAll (str "-buildkite-plugin") [] name
    name
  else []

/-- The emitted environment-variable name for a configuration key
(plugin.go lines 274-276): whitespace runs in the key collapse to one
space, the name `BUILDKITE_PLUGIN_<name>_<key>` has dashes and whitespace
runs turned into underscores, is upper-cased, and has consecutive
underscores collapsed. -/
def configEnvName (pname k : Str) : Str :=
  let k := collapseRuns isRegexSpace ' ' k
  let name := (str "BUILDKITE_PLUGIN_") ++ pname ++ '_' :: k
  let name := dashWsToUnderscore name
  let name := name.map Char.toUpper
  underscoreCollapse name

/-- Decimal rendering of an index (Go `%d` on an int loop index). -/
def natToStr (n : Nat) : Str := (Nat.repr n).toList

/-- The `KEY=VALUE` strings emitted for one configuration entry
(the `switch` of plugin.go lines 278-305): one string per scalar, one
per array element indexed `_0`, `_1`, ...; unknown types are only
printed, not emitted. -/
def configEntryVars (pname k : Str) (v : ConfigValue) : List Str :=
  let name := configEnvName pname k
  match v with
  | .s vv => [name ++ '=' :: vv]
  | .b vv => [name ++ '=' :: (if vv then str "true" else str "false")]
  | .num vv => [name ++ '=' :: vv]
  | .strList vs =>
    vs.enum.map (fun q => name ++ '_' :: (natToStr q.1 ++ '=' :: q.2))
  | .list vs =>
    vs.enum.filterMap (fun q =>
      match q.2 with
      | .num s => some (name ++ '_' :: (natToStr q.1 ++ '=' :: s))
      | .s s => some (name ++ '_' :: (natToStr q.1 ++ '=' :: s))
      | _ => none)
  | .other => []

/-- `Plugin.ConfigurationToEnvironment` (plugin.go lines 266-311),
modelled up to the sorted `KEY=VALUE` slice that the source hands to the
external `env.FromSlice` (the `env` package is outside the sources). -/
def ConfigurationToEnvironment (p : Plugin) : List Str :=
  sortStrings (p.Configuration.foldl
    (fun acc kv => acc ++ configEntryVars (PluginName p) kv.1 kv.2) [])

/-- The key transformation exactly as the claim words it: the key is
uppercased, every non-alphanumeric character becomes an underscore, and
consecutive underscores collapse. (Spec-side formulation, for comparison
with `configEnvName`.) -/
def claimedConfigEnvName (pname k : Str) : Str :=
  underscoreCollapse (((str "BUILDKITE_PLUGIN_") ++ pname ++ '_' :: k).map
    (fun c => if c.isAlpha || c.isDigit then c.toUpper else '_'))

/-- Match of the scheme-detection regex `^[a-z\+]+://` (plugin.go line
33): a non-empty run of `[a-z+]` followed by `://`. (`:` is not in the
class, so the match is determined by the maximal run.) -/
def locationSchemeMatch (s : Str) : Bool :=
  let run := s.takeWhile (fun c => c.isLower || c == '+')
  decide (run ≠ []) && goStartsWith (str "://") (s.drop run.length)

/-- A parsed URL, with the components the plugin resolver reads. -/
structure GoURL where
  scheme : Str
  host : Str
  path : Str
  fragment : Str
deriving DecidableEq

/-- The character set of well-formed plugin path segments and versions
(letters, digits, dash, underscore, dot), under which the URL round trip
needs no escaping. -/
def plainSegChar (c : Char) : Bool :=
  c.isAlpha || c.isDigit || c == '-' || c == '_' || c == '.'

/-- Characters that Go's URL serializer leaves unescaped in host, path
and fragment components alike. -/
def urlSafeChar (c : Char) : Bool :=
  c.isAlpha || c.isDigit || c == '-' || c == '_' || c == '.' || c == '~' ||
  c == '/' || c == '+'

/-- Split at the first occurrence of a character. -/
def splitAtFirst (t : Char) : Str → Str × Option Str
  | [] => ([], none)
  | c :: rest =>
    if c = t then ([], some rest)
    else (c :: (splitAtFirst t rest).1, (splitAtFirst t rest).2)

/-- Model of `net/url.Parse` restricted to `scheme://host/path#fragment`
shapes without userinfo, query or percent-escapes — exactly the URLs the
plugin resolver constructs. The fragment is cut at the first `#` as in
Go. Inputs outside this shape are conservatively rejected (`none`). -/
def goURLParse (s : Str) : Option GoURL :=
  let q := splitAtFirst '#' s
  let fragment := q.2.getD []
  let scheme := q.1.takeWhile (fun c => c != ':')
  let rest := q.1.drop scheme.length
  if goStartsWith (str "://") rest then
    let hostPath := rest.drop 3
    let host := hostPath.takeWhile (fun c => c != '/')
    let path := hostPath.drop host.length
    if decide (scheme ≠ []) && scheme.all Char.isLower && host.all urlSafeChar
        && path.all urlSafeChar && fragment.all urlSafeChar then
      some ⟨scheme, host, path, fragment⟩
    else none
  else none

/-- `URL.String` on the URLs accepted by `goURLParse` (no escaping is
needed on that character set). -/
def GoURL.render (u : GoURL) : Str :=
  u.scheme ++ str "://" ++ u.host ++ u.path ++
    (if u.fragment ≠ [] then '#' :: u.fragment else [])

/-- `ResolvePluginLocation` (plugin.go lines 61-102): locations without a
scheme are completed from their `/`-segment count, then parsed; a missing
fragment defaults to `master`. A `url.Parse` failure is `none`. -/
def ResolvePluginLocation (location : Str) : Option Str :=
  let parsed :=
    if locationSchemeMatch location then goURLParse location
    else
      let parts := splitOnChar '/' location
      let completed :=
        if parts.length ≥ 3 then str "https://" ++ location
        else if parts.length = 2 then str "https://github.com/" ++ location
        else str "https://github.com/buildkite-plugins/" ++ location
      goURLParse completed
  match parsed with
  | none => none
  | some u =>
    let u := if u.fragment = [] then { u with fragment := str "master" } else u
    let u := if u.scheme = [] then { u with scheme := str "https" } else u
    some u.render

/-- The mutable state of `headerTimesStreamer` that `Upload` touches
(header_times_streamer.go lines 32-50). -/
structure HeaderTimes where
  times : List Str
  cursor : Nat
deriving DecidableEq

/-- The observable steps `Upload` takes, in order. The callback carries
the acknowledgement outcome of the control-plane upload it performs;
`Upload` cannot observe it (the callback returns nothing). -/
inductive UploadEvent where
  | cursorSet (n : Nat)
  | callbackCalled (c len : Nat) (payload : List (Nat × Str)) (ack : Bool)
deriving DecidableEq

/-- `headerTimesStreamer.Upload` (header_times_streamer.go lines
129-164): snapshot the unuploaded tail `times[cursor:len]`, build the
`{index → timestamp}` payload, set the cursor to `len`, and only then —
and only when the tail is non-empty — invoke the upload callback. -/
def headerTimesUpload (h : HeaderTimes) (ack : Bool) :
    HeaderTimes × List UploadEvent :=
  let c := h.cursor
  let len := h.times.length
  let ts := h.times.drop h.cursor
  let payload := ts.enum.map (fun q => (c + q.1, q.2))
  let h' := { h with cursor := len }
  if ts.length = 0 then (h', [UploadEvent.cursorSet len])
  else (h', [UploadEvent.cursorSet len,
             UploadEvent.callbackCalled c len payload ack])

/-- The shape of `exec.ExitError.Sys()` (process.go line 249): either a
`syscall.WaitStatus` carrying the exit code, or something else. -/
inductive SysWaitStatus where
  | waitStatus (exitStatus : Int)
  | otherSys
deriving DecidableEq

/-- The result of `command.Wait()` as classified by `getExitStatus`:
nil, an `*exec.ExitError`, or any other error. -/
inductive WaitResult where
  | ok
  | exitError (sys : SysWaitStatus)
  | otherError
deriving DecidableEq

/-- Go `fmt.Sprintf("%d", n)` for an int. -/
def intToStr (n : Int) : Str := (toString n).toList

/-- `Process.getExitStatus` (process.go lines 244-262): `exitStatus`
starts at -1 and is overwritten only for a nil error (0) or an
`ExitError` whose `Sys()` is a `WaitStatus` (its exit code). -/
def getExitStatus (waitResult : WaitResult) : Str :=
  let exitStatus : Int :=
    match waitResult with
    | .ok => 0
    | .exitError (.waitStatus s) => s
    | .exitError .otherSys => -1
    | .otherError => -1
  intToStr exitStatus

/-- The observable milestones of one run of `Process.Start`, in program
order of the `Start` goroutine. -/
inductive ProcessEvent where
  | commandStarted
  | startedChanClosed
  | waitReturned
  | writerPipeClosed
  | doneChanClosed
  | exitStatusAssigned
  | drainWaited
  | startReturned
deriving DecidableEq

/-- The branch conditions of `Process.Start` that affect its event order:
whether the PTY branch is taken and whether spawning fails
(`StartPTY`/`command.Start` returning an error). The handler presence
only changes which consumer goroutine runs, not the `Start` order. -/
structure StartScenario where
  pty : Bool
  spawnFails : Bool
deriving DecidableEq

/-- The straight-line event trace of `Process.Start` (process.go lines
47-180). On a spawn failure `ExitStatus` is set to "1" and Start returns
early: the child never starts, `Wait` is never called, and the done
channel is never closed. Otherwise: spawn, close `started`, `Wait`,
close the writer pipe, close `done`, assign the exit status, drain the
consumers (bounded), return. -/
def processStartTrace (sc : StartScenario) : List ProcessEvent :=
  if sc.spawnFails then
    [ProcessEvent.exitStatusAssigned, ProcessEvent.startReturned]
  else
    [ProcessEvent.commandStarted, ProcessEvent.startedChanClosed,
     ProcessEvent.waitReturned, ProcessEvent.writerPipeClosed,
     ProcessEvent.doneChanClosed, ProcessEvent.exitStatusAssigned,
     ProcessEvent.drainWaited, ProcessEvent.startReturned]

/-- The `10 * time.Second` timeout of `timeoutWait` (process.go line 277). -/
def timeoutWaitSeconds : Nat := 10

/-- `timeoutWait` (process.go lines 264-280). `finish` is the instant (in
seconds after the child's Wait returned) at which the consumer
goroutines' WaitGroup completes, `none` if it never does. The `select`
resolves at the earlier of `finish` and the 10-second timer; the first
component is the time spent blocked, the second is whether the wait group
finished (ties go to the wait group, matching the model's choice at the
unobservable race). -/
def timeoutWait (finish : Option Nat) : Nat × Bool :=
  match finish with
  | some t => if t ≤ timeoutWaitSeconds then (t, true) else (timeoutWaitSeconds, false)
  | none => (timeoutWaitSeconds, false)

/-- The tail of `Process.Start` after Wait returns (process.go lines
157-180): the drain wait's timeout error is only logged, and Start
returns nil regardless. First component: seconds spent draining; second:
whether Start returns (it always does). -/
def startDrainOutcome (finish : Option Nat) : Nat × Bool :=
  ((timeoutWait finish).1, true)

/-- Absolute filesystem paths, as segment lists. -/
abbrev FPath := List String

/-- A filesystem node: regular file, directory, or symbolic link. -/
inductive FNode where
  | file
  | dir
  | symlink (target : FPath)
deriving DecidableEq

/-- A filesystem: a finite list of paths with their nodes. -/
structure FileSystem where
  entries : List (FPath × FNode)
deriving DecidableEq

namespace FileSystem

/-- Look a path up in the filesystem. -/
def lookup (fs : FileSystem) (p : FPath) : Option FNode :=
  (fs.entries.find? (fun e => e.1 = p)).map (fun e => e.2)

/-- Resolve symbolic links (model of `filepath.EvalSymlinks` at the
granularity the uploader observes; fuel bounds link chains). -/
def resolve (fs : FileSystem) : Nat → FPath → FPath
  | 0, p => p
  | fuel + 1, p =>
    match fs.lookup p with
    | some (FNode.symlink t) => fs.resolve fuel t
    | _ => p

/-- Post-symlink-resolution form of a path, with fuel covering any chain
through the filesystem. -/
def resolved (fs : FileSystem) (p : FPath) : FPath :=
  fs.resolve fs.entries.length p

/-- `os.Stat(p).IsDir()`: Stat follows symlinks. -/
def statIsDir (fs : FileSystem) (p : FPath) : Bool :=
  decide (fs.lookup (fs.resolved p) = some FNode.dir)

/-- `os.Lstat(p)` reporting a symlink. -/
def lstatIsSymlink (fs : FileSystem) (p : FPath) : Bool :=
  match fs.lookup p with
  | some (FNode.symlink _) => true
  | _ => false

/-- `filepath.WalkDir root`: every entry under `root` (including `root`
itself), in entry-list order (Go walks in lexical order; nothing proved
here depends on the order). A symlink is reported with `IsDir() = false`
and is not followed into. -/
def walkDir (fs : FileSystem) (root : FPath) : List (FPath × FNode) :=
  fs.entries.filter (fun e => root.isPrefixOf e.1)

end FileSystem

/-- The fields of `api.Artifact` that `Collect` determines (the rest are
filled by hashing and upload). -/
structure Artifact where
  path : FPath
  absolutePath : FPath
  globPath : FPath
deriving DecidableEq

/-- The two `ArtifactUploaderConfig` switches `Collect` reads. -/
structure CollectConfig where
  globResolveFollowSymlinks : Bool
  uploadSkipSymlinks : Bool
deriving DecidableEq

/-- The loop state of `Collect`: the `seenPaths` dedupe set and the
artifacts gathered so far. -/
structure CollectState where
  seenPaths : List FPath
  artifacts : List Artifact
deriving DecidableEq

/-- The `WalkDir` callback of the directory branch (artifact_uploader.go
lines 148-194): skip paths already seen and directories; under
`GlobResolveFollowSymlinks` resolve the walked path for the relative
path; mark the walked (unresolved) path `p` seen; emit the artifact with
`AbsolutePath = p`. (`filepath.Rel` against the working directory is
modelled as the identity on the resolved path: it renames but never
merges artifacts.) -/
def walkStep (conf : CollectConfig) (fs : FileSystem) (lp : FPath)
    (s : CollectState) (e : FPath × FNode) : CollectState :=
  if e.1 ∈ s.seenPaths then s
  else
    match e.2 with
    | FNode.dir => s
    | _ =>
      let rel := if conf.globResolveFollowSymlinks then fs.resolved e.1 else e.1
      { seenPaths := s.seenPaths ++ [e.1],
        artifacts := s.artifacts ++ [⟨rel, e.1, lp⟩] }

/-- One literal prospect of the directory pass (artifact_uploader.go
lines 125-199): skip if its absolute path was seen; walk it only if it
is a directory. -/
def dirProspectStep (conf : CollectConfig) (fs : FileSystem)
    (s : CollectState) (lp : FPath) : CollectState :=
  if lp ∈ s.seenPaths then s
  else if fs.statIsDir lp then (fs.walkDir lp).foldl (walkStep conf fs lp) s
  else s

/-- One glob segment: `*` matches any single segment. -/
def segMatches (pat seg : String) : Bool := pat == "*" || pat == seg

/-- Glob matching with `*` (one segment) and `**` (any number of
segments), the pattern language of the uploader's glob library. -/
def globMatchFuel : Nat → List String → List String → Bool
  | 0, _, _ => false
  | _ + 1, [], [] => true
  | _ + 1, [], _ :: _ => false
  | fuel + 1, "**" :: ps, [] => globMatchFuel fuel ps []
  | fuel + 1, "**" :: ps, s :: ss =>
    globMatchFuel fuel ps (s :: ss) || globMatchFuel fuel ("**" :: ps) ss
  | _ + 1, _ :: _, [] => false
  | fuel + 1, p :: ps, s :: ss => segMatches p s && globMatchFuel fuel ps ss

def globMatch (pat pth : List String) : Bool :=
  globMatchFuel (pat.length + pth.length + 1) pat pth

/-- Glob expansion (`zglob.Glob`): every filesystem path matching the
pattern, directories included (the caller filters them). -/
def globExpand (fs : FileSystem) (pat : FPath) : List FPath :=
  (fs.entries.filter (fun e => globMatch pat e.1)).map (fun e => e.1)

/-- One glob-matched file of the glob pass (artifact_uploader.go lines
252-306): dedupe on the absolute path, mark it seen, then skip
directories and (per config) symlinks; emit the artifact with
`AbsolutePath` = the unresolved absolute path. -/
def globFileStep (conf : CollectConfig) (fs : FileSystem) (pat : FPath)
    (s : CollectState) (f : FPath) : CollectState :=
  if f ∈ s.seenPaths then s
  else
    let s := { s with seenPaths := s.seenPaths ++ [f] }
    if fs.statIsDir f then s
    else if conf.uploadSkipSymlinks && fs.lstatIsSymlink f then s
    else { s with artifacts := s.artifacts ++ [⟨f, f, pat⟩] }

/-- One prospect of the glob pass (artifact_uploader.go lines 201-307). -/
def globProspectStep (conf : CollectConfig) (fs : FileSystem)
    (s : CollectState) (pat : FPath) : CollectState :=
  (globExpand fs pat).foldl (globFileStep conf fs pat) s

/-- `ArtifactUploader.Collect` (artifact_uploader.go lines 113-310):
the directory pass over all prospects, then the glob pass, sharing one
`seenPaths` set. Prospects are taken as absolute paths (`filepath.Abs`
and the trim-space step are outside the deduplication logic). -/
def Collect (conf : CollectConfig) (fs : FileSystem)
    (prospects : List FPath) : List Artifact :=
  let s1 := prospects.foldl (dirProspectStep conf fs) ⟨[], []⟩
  (prospects.foldl (globProspectStep conf fs) s1).artifacts

/-- A filesystem in which a symlink aliases a regular file inside a
directory prospect. -/
def fsAlias : FileSystem :=
  ⟨[(["d"], FNode.dir), (["d","a"], FNode.symlink ["d","b"]), (["d","b"], FNode.file)]⟩

/-- A plugin whose configuration key contains a `.` (a non-alphanumeric
character that is neither a dash nor whitespace). -/
def dotPlugin : Plugin := ⟨str "repo", [], [], [], [(str "a.b", ConfigValue.s (str "x"))]⟩

/-- An environment holding the single binding `A=""`. -/
def envEmptyVal : Environment := Environment.empty.Set (str "A") (str "")

/-- An environment built by `Set` whose stored value ` a ` (from the
quoted input `" a "`) is not a fixed point of the `Set` normalization. -/
def envSpacey : Environment := Environment.empty.Set (str "K") (str "\" a \"")

/-- `a` appears strictly before `b` in `t` (both occur, first occurrence
of `a` first). -/
def precedesIn (a b : ProcessEvent) (t : List ProcessEvent) : Prop :=
  a ∈ t ∧ b ∈ t ∧ t.indexOf a < t.indexOf b

instance (a b : ProcessEvent) (t : List ProcessEvent) : Decidable (precedesIn a b t) :=
  inferInstanceAs (Decidable (_ ∧ _ ∧ _))

/-- C2, failing input: `MergePlugins` panics (nil-map write) as soon as
the agent declares one plugin, while the claim requires a normal return;
with no agent plugins the nil map is never written and the job plugins
pass through. -/
theorem mergePlugins_nil_map_fault :
    MergePlugins [] [⟨str "a", [], [], [], []⟩] = none ∧
    MergePlugins [⟨str "a", [], [], [], []⟩] [] = some [⟨str "a", [], [], [], []⟩] :=
  ⟨rfl, rfl⟩

/-- C3, counterexample: an unacknowledged flush (`ack = false`) still
moves the cursor from 0 to 1, where the claim requires it unchanged. -/
theorem headerTimes_cursor_moves_unacknowledged :
    (headerTimesUpload ⟨[str "t0"], 0⟩ false).1.cursor ≠
      (HeaderTimes.mk [str "t0"] 0).cursor := by decide

/-- C3, amended: `Upload` advances the cursor to the scanned length
unconditionally and before the callback is invoked; the state transition
is independent of the acknowledgement; any callback carries exactly the
pending tail `times[cursor:len]` keyed by absolute index; and a repeated
`Upload` with no new timestamps never re-offers them (no callback). -/
theorem headerTimesUpload_advances_unconditionally (h : HeaderTimes) (ack ack2 : Bool) :
    (headerTimesUpload h ack).1.cursor = h.times.length ∧
    (headerTimesUpload h ack).1.times = h.times ∧
    (headerTimesUpload h ack).1 = (headerTimesUpload h true).1 ∧
    (headerTimesUpload h ack).2.head? = some (UploadEvent.cursorSet h.times.length) ∧
    (∀ c len pl a, UploadEvent.callbackCalled c len pl a ∈ (headerTimesUpload h ack).2 →
      c = h.cursor ∧ len = h.times.length ∧
      pl.map Prod.fst = List.range' h.cursor (h.times.length - h.cursor) ∧
      pl.map Prod.snd = h.times.drop h.cursor) ∧
    (headerTimesUpload (headerTimesUpload h ack).1 ack2).2 =
      [UploadEvent.cursorSet h.times.length] := by
  refine ⟨?_, ?_, ?_, ?_, ?_, ?_⟩
  · unfold headerTimesUpload
    dsimp only
    split <;> rfl
  · unfold headerTimesUpload
    dsimp only
    split <;> rfl
  · unfold headerTimesUpload
    dsimp only
    split <;> rfl
  · unfold headerTimesUpload
    dsimp only
    split <;> rfl
  · intro c len pl a hmem
    unfold headerTimesUpload at hmem
    dsimp only at hmem
    split at hmem
    · simp at hmem
    · simp only [List.mem_cons, List.mem_singleton] at hmem
      rcases hmem with h1 | h1 | h1
      · exact absurd h1 (by simp)
      · cases h1
        refine ⟨rfl, rfl, ?_, ?_⟩
        · rw [List.map_map]
          have : (Prod.fst ∘ fun q : Nat × Str => (h.cursor + q.1, q.2)) =
              (fun q : Nat × Str => h.cursor + q.1) := rfl
          rw [this]
          rw [show (fun q : Nat × Str => h.cursor + q.1) =
            ((fun i => h.cursor + i) ∘ Prod.fst) from rfl]
          rw [← List.map_map, List.enum_map_fst, ← List.range'_eq_map_range,
            List.length_drop]
        · rw [List.map_map]
          have : (Prod.snd ∘ fun q : Nat × Str => (h.cursor + q.1, q.2)) =
              (Prod.snd (α := Nat) (β := Str)) := rfl
          rw [this, List.enum_map_snd]
      · cases h1
  · unfold headerTimesUpload
    dsimp only
    split
    · dsimp only
      rw [if_pos]
      simp [List.drop_length]
    · dsimp only
      rw [if_pos]
      simp [List.drop_length]

/-- C5: the exit status is "0" for a nil wait error, the wait status's
exit code for an `ExitError` carrying a `WaitStatus`, and "-1" for an
`ExitError` of any other shape or any other error. -/
theorem getExitStatus_classification :
    getExitStatus WaitResult.ok = str "0" ∧
    (∀ n : Int, getExitStatus (WaitResult.exitError (SysWaitStatus.waitStatus n)) = intToStr n) ∧
    getExitStatus (WaitResult.exitError SysWaitStatus.otherSys) = str "-1" ∧
    getExitStatus WaitResult.otherError = str "-1" :=
  ⟨rfl, fun _ => rfl, rfl, rfl⟩

/-- C8: the done channel is closed exactly when the spawn succeeded and
`Wait` returned, strictly after `Wait` returns and strictly before the
exit status is assigned (hence before the sequencer can observe it), and
it is closed at most once. -/
theorem processStart_done_ordering (sc : StartScenario) :
    (ProcessEvent.doneChanClosed ∈ processStartTrace sc ↔ sc.spawnFails = false) ∧
    (ProcessEvent.doneChanClosed ∈ processStartTrace sc →
      precedesIn ProcessEvent.waitReturned ProcessEvent.doneChanClosed (processStartTrace sc) ∧
      precedesIn ProcessEvent.doneChanClosed ProcessEvent.exitStatusAssigned (processStartTrace sc)) ∧
    (processStartTrace sc).count ProcessEvent.doneChanClosed ≤ 1 := by
  rcases sc with ⟨pty, sf⟩
  cases sf <;> cases pty <;> decide

/-- C8, witness at the non-PTY successful-spawn scenario. -/
theorem processStart_done_ordering_witness :
    precedesIn ProcessEvent.waitReturned ProcessEvent.doneChanClosed
      (processStartTrace ⟨false, false⟩) ∧
    precedesIn ProcessEvent.doneChanClosed ProcessEvent.exitStatusAssigned
      (processStartTrace ⟨false, false⟩) :=
  (processStart_done_ordering ⟨false, false⟩).2.1 (by decide)

/-- C9: the drain of the output consumers blocks for at most the
10-second timeout, a consumer that never reaches EOF is drained for
exactly 10 seconds, and `Start` proceeds (returns) regardless. -/
theorem startDrain_bounded (finish : Option Nat) :
    (timeoutWait finish).1 ≤ timeoutWaitSeconds ∧
    (startDrainOutcome finish).2 = true ∧
    (startDrainOutcome none).1 = timeoutWaitSeconds := by
  refine ⟨?_, rfl, rfl⟩
  match finish with
  | none => exact Nat.le_refl _
  | some t =>
    simp only [timeoutWait]
    split
    · omega
    · exact Nat.le_refl _

/-- C1, counterexample: the environment `{A ↦ ""}` (an empty stored
value) serializes to the line `A=`, which the parsing regex rejects
(group 2 is `.+`), so the round trip loses the binding. -/
theorem environment_roundtrip_loses_empty_value :
    (EnvironmentFromSlice envEmptyVal.ToSlice).find (str "A") ≠ envEmptyVal.find (str "A") := by
  decide

/-- C4, counterexample: walking the directory prospect `d` that holds a
symlink `d/a` aliasing the regular file `d/b` collects two artifacts
whose post-symlink-resolution absolute paths are both `d/b`. -/
theorem collect_dupes_resolved_path :
    ¬ ((Collect ⟨false, false⟩ fsAlias [["d"]]).map
        (fun a => fsAlias.resolved a.absolutePath)).Nodup := by decide

/-- C7, counterexample: the configuration key `a.b` of plugin `repo` is
emitted as `BUILDKITE_PLUGIN_REPO_A.B` — the dot survives — while the
claimed transformation (every non-alphanumeric becomes an underscore)
yields `BUILDKITE_PLUGIN_REPO_A_B`. -/
theorem configEnv_keeps_dot :
    ConfigurationToEnvironment dotPlugin = [str "BUILDKITE_PLUGIN_REPO_A.B=x"] ∧
    claimedConfigEnvName (PluginName dotPlugin) (str "a.b") =
      str "BUILDKITE_PLUGIN_REPO_A_B" ∧
    configEnvName (PluginName dotPlugin) (str "a.b") ≠
      claimedConfigEnvName (PluginName dotPlugin) (str "a.b") := by
  refine ⟨by decide, by decide, by decide⟩

/-- C10, counterexample: `Set` of the quoted input `" a "` stores the
value ` a `; `Copy` carries that stored value over verbatim even though
the claimed normalization of ` a ` is `a`, so the Copy write path does
not apply the normalization. -/
theorem copy_skips_normalization :
    envSpacey.Copy.find (str "K") = some (str " a ") ∧
    Environment.setValueNorm (str " a ") = str "a" ∧
    str " a " ≠ str "a" := by
  refine ⟨by decide, by decide, by decide⟩

theorem word_not_space {c : Char} (h : isWordChar c = true) : isGoSpace c = false := by
  simp only [isWordChar, Char.isAlpha, Char.isUpper, Char.isLower, Char.isDigit,
    Bool.or_eq_true, Bool.and_eq_true, decide_eq_true_eq, beq_iff_eq] at h
  have hn : (65 ≤ c.toNat ∧ c.toNat ≤ 90) ∨ (97 ≤ c.toNat ∧ c.toNat ≤ 122) ∨
      (48 ≤ c.toNat ∧ c.toNat ≤ 57) ∨ c.toNat = 95 := by
    rcases h with ((⟨h1, h2⟩ | ⟨h1, h2⟩) | ⟨h1, h2⟩) | h1
    · exact Or.inl ⟨h1, h2⟩
    · exact Or.inr (Or.inl ⟨h1, h2⟩)
    · exact Or.inr (Or.inr (Or.inl ⟨h1, h2⟩))
    · subst h1
      exact Or.inr (Or.inr (Or.inr rfl))
  simp only [isGoSpace, Bool.or_eq_false_iff, Bool.and_eq_false_iff, beq_eq_false_iff_ne,
    ne_eq, decide_eq_false_iff_not]
  omega

theorem dropWhile_all_false {p : Char → Bool} {l : Str} (h : ∀ c ∈ l, p c = false) :
    l.dropWhile p = l := by
  cases l with
  | nil => rfl
  | cons c rest => simp [List.dropWhile_cons, h c (List.mem_cons_self c rest)]

theorem goTrimSpace_eq_self {l : Str} (h : ∀ c ∈ l, isGoSpace c = false) :
    goTrimSpace l = l := by
  unfold goTrimSpace dropEndWhile
  rw [dropWhile_all_false h,
    dropWhile_all_false (fun c hc => h c (List.mem_reverse.mp hc)), List.reverse_reverse]

theorem takeWhile_all_stop {p : Char → Bool} {a : Str} {c : Char} (b : Str)
    (ha : ∀ x ∈ a, p x = true) (hc : p c = false) :
    (a ++ c :: b).takeWhile p = a := by
  induction a with
  | nil => simp [List.takeWhile_cons, hc]
  | cons x xs ih =>
    have hx := ha x (List.mem_cons_self x xs)
    simp [List.takeWhile_cons, hx, ih (fun y hy => ha y (List.mem_cons_of_mem _ hy))]

theorem mapIndex_assign (m : List (Str × Str)) (k v k' : Str) :
    mapIndex (mapAssign m k v) k' = if k' = k then some v else mapIndex m k' := by
  induction m with
  | nil =>
    by_cases hk : k' = k
    · simp [mapAssign, mapIndex, List.find?_cons, hk]
    · have h2 : (decide (k = k')) = false := by
        simp only [decide_eq_false_iff_not]
        exact fun h => hk h.symm
      simp [mapAssign, mapIndex, List.find?_cons, hk, h2]
  | cons p rest ih =>
    by_cases hp : p.1 = k
    · by_cases hk : k' = k
      · simp [mapAssign, if_pos hp, mapIndex, List.find?_cons, hk]
      · have h2 : ¬ (k = k') := fun h => hk h.symm
        have h3 : ¬ (p.1 = k') := fun h => hk (hp ▸ h).symm
        simp [mapAssign, if_pos hp, mapIndex, List.find?_cons, h2, h3, hk]
    · by_cases hq : p.1 = k'
      · have hk : ¬ (k' = k) := fun h => hp (hq.symm ▸ h)
        simp [mapAssign, if_neg hp, mapIndex, List.find?_cons, hq, hk]
      · simp only [mapAssign, if_neg hp]
        have := ih
        simp only [mapIndex, List.find?_cons] at this ⊢
        simp [hq, this]

theorem mapAssign_mem {m : List (Str × Str)} {k v : Str} {q : Str × Str}
    (h : q ∈ mapAssign m k v) : q ∈ m ∨ q = (k, v) := by
  induction m with
  | nil => simpa [mapAssign] using h
  | cons p rest ih =>
    by_cases hp : p.1 = k
    · simp only [mapAssign, if_pos hp, List.mem_cons] at h
      rcases h with h | h
      · exact Or.inr h
      · exact Or.inl (List.mem_cons_of_mem _ h)
    · simp only [mapAssign, if_neg hp, List.mem_cons] at h
      rcases h with h | h
      · exact Or.inl (h ▸ List.mem_cons_self p rest)
      · rcases ih h with h2 | h2
        · exact Or.inl (List.mem_cons_of_mem _ h2)
        · exact Or.inr h2

theorem parseEnvLine_mk {k v : Str} (hk : goodEnvKey k = true) (hv : v ≠ [])
    (hnl : '\n' ∉ v) : parseEnvLine (k ++ '=' :: v) = some (k, v) := by
  obtain ⟨c, rest, rfl⟩ : ∃ c rest, k = c :: rest := by
    cases k with
    | nil => simp [goodEnvKey] at hk
    | cons c rest => exact ⟨c, rest, rfl⟩
  simp only [goodEnvKey, Bool.and_eq_true, List.all_eq_true] at hk
  obtain ⟨hca, hall⟩ := hk
  have htw : ((c :: rest) ++ '=' :: v).takeWhile isWordChar = c :: rest :=
    takeWhile_all_stop v (fun x hx => hall x hx) (by decide)
  unfold parseEnvLine
  rw [htw, List.drop_left (c :: rest) ('=' :: v)]
  simp [hca, hv, hnl]

theorem parseEnvLine_key_ne {l k v : Str} (h : parseEnvLine l = some (k, v)) :
    k ≠ [] := by
  unfold parseEnvLine at h
  split at h
  · exact absurd h (by simp)
  · rename_i c tail v' heq hrest
    split at h
    · rw [Option.some_inj, Prod.mk.injEq] at h
      rw [← h.1, heq]
      simp
    · exact absurd h (by simp)
  · exact absurd h (by simp)

theorem intercalate_single (x : Str) : List.intercalate (str "\n") [x] = x := by
  simp [List.intercalate]

theorem fromSliceCore_pending (lines : List Str)
    (hl : ∀ l ∈ lines, (parseEnvLine l).isSome = true) :
    ∀ (k0 v0 : Str), k0 ≠ [] → ∀ env : Environment,
      fromSliceCore lines k0 [v0] env =
        (lines.filterMap parseEnvLine).foldl (fun m q => m.Set q.1 q.2)
          (env.Set k0 v0) := by
  induction lines with
  | nil =>
    intro k0 v0 hk0 env
    simp only [fromSliceCore, List.filterMap_nil, List.foldl_nil]
    rw [if_pos ⟨hk0, by simp⟩, intercalate_single]
  | cons l rest ih =>
    intro k0 v0 hk0 env
    obtain ⟨⟨k, v⟩, hp⟩ := Option.isSome_iff_exists.mp (hl l (List.mem_cons_self l rest))
    have hk := parseEnvLine_key_ne hp
    simp only [fromSliceCore, hp]
    rw [if_pos ⟨hk0, by simp⟩, intercalate_single]
    rw [ih (fun x hx => hl x (List.mem_cons_of_mem _ hx)) k v hk]
    simp [List.filterMap_cons, hp]

theorem environmentFromSlice_foldl (lines : List Str)
    (hl : ∀ l ∈ lines, (parseEnvLine l).isSome = true) :
    EnvironmentFromSlice lines =
      (lines.filterMap parseEnvLine).foldl (fun m q => m.Set q.1 q.2)
        Environment.empty := by
  cases lines with
  | nil => rfl
  | cons l rest =>
    obtain ⟨⟨k, v⟩, hp⟩ := Option.isSome_iff_exists.mp (hl l (List.mem_cons_self l rest))
    have hk := parseEnvLine_key_ne hp
    unfold EnvironmentFromSlice
    simp only [fromSliceCore, hp]
    rw [if_neg (by simp)]
    simp only [List.nil_append]
    rw [fromSliceCore_pending rest (fun x hx => hl x (List.mem_cons_of_mem _ hx)) k v hk]
    simp [List.filterMap_cons, hp]

theorem setKeyNorm_good {k : Str} (hk : goodEnvKey k = true) :
    Environment.setKeyNorm k = k := by
  have hall : ∀ x ∈ k, isWordChar x = true := by
    cases k with
    | nil => simp
    | cons c rest =>
      simp only [goodEnvKey, Bool.and_eq_true, List.all_eq_true] at hk
      exact hk.2
  unfold Environment.setKeyNorm runtimeGoosWindows
  simp only [Bool.false_eq_true, if_false]
  exact goTrimSpace_eq_self (fun c hc => word_not_space (hall c hc))

theorem set_good {e : Environment} {k v : Str} (hk : goodEnvKey k = true)
    (hnorm : Environment.setValueNorm v = v) :
    e.Set k v = ⟨mapAssign e.env k v⟩ := by
  unfold Environment.Set
  rw [setKeyNorm_good hk, hnorm]

theorem foldl_set_eq_assign (ps : List (Str × Str))
    (hgood : ∀ p ∈ ps, goodEnvKey p.1 = true ∧ Environment.setValueNorm p.2 = p.2) :
    ∀ m : List (Str × Str),
      ps.foldl (fun c q => c.Set q.1 q.2) (⟨m⟩ : Environment) =
        (⟨ps.foldl (fun mm q => mapAssign mm q.1 q.2) m⟩ : Environment) := by
  induction ps with
  | nil => intro m; rfl
  | cons p rest ih =>
    intro m
    obtain ⟨h1, h2⟩ := hgood p (List.mem_cons_self p rest)
    simp only [List.foldl_cons]
    rw [set_good h1 h2]
    exact ih (fun q hq => hgood q (List.mem_cons_of_mem _ hq)) _

theorem foldl_assign_mapIndex (ps : List (Str × Str)) :
    (ps.map Prod.fst).Nodup → ∀ (k : Str) (m : List (Str × Str)),
      mapIndex (ps.foldl (fun mm q => mapAssign mm q.1 q.2) m) k =
        (match ps.find? (fun q => q.1 = k) with
          | some q => some q.2
          | none => mapIndex m k) := by
  induction ps with
  | nil => intro _ k m; rfl
  | cons p rest ih =>
    intro hnd k m
    simp only [List.map_cons, List.nodup_cons] at hnd
    obtain ⟨hpn, hndr⟩ := hnd
    simp only [List.foldl_cons]
    rw [ih hndr k (mapAssign m p.1 p.2)]
    by_cases hk : p.1 = k
    · have hfr : rest.find? (fun q => decide (q.1 = k)) = none := by
        rw [List.find?_eq_none]
        intro q hq
        simp only [decide_eq_true_eq]
        intro hqk
        exact hpn (by
          rw [hk, ← hqk]
          exact List.mem_map_of_mem Prod.fst hq)
      rw [hfr]
      rw [mapIndex_assign m p.1 p.2 k]
      simp [List.find?_cons, hk, if_pos hk.symm]
    · cases hfr : rest.find? (fun q => decide (q.1 = k)) with
      | some q => simp [List.find?_cons, hk, hfr]
      | none =>
        rw [mapIndex_assign m p.1 p.2 k, if_neg (fun h : k = p.1 => hk h.symm)]
        simp [List.find?_cons, hk, hfr]

theorem find?_key_perm {ps qs : List (Str × Str)} (h : ps.Perm qs) :
    (ps.map Prod.fst).Nodup → ∀ k : Str,
      ps.find? (fun q => q.1 = k) = qs.find? (fun q => q.1 = k) := by
  induction h with
  | nil => intro _ _; rfl
  | cons x h ih =>
    intro hnd k
    simp only [List.map_cons, List.nodup_cons] at hnd
    by_cases hx : x.1 = k <;> simp [List.find?_cons, hx, ih hnd.2 k]
  | swap x y l =>
    intro hnd k
    simp only [List.map_cons, List.nodup_cons, List.mem_cons] at hnd
    have hxy : y.1 ≠ x.1 := fun hcontra => hnd.1 (Or.inl hcontra)
    by_cases hx : x.1 = k
    · have hy : ¬ (y.1 = k) := fun hcontra => hxy (hcontra.trans hx.symm)
      simp [List.find?_cons, hx, hy]
    · by_cases hy : y.1 = k <;> simp [List.find?_cons, hx, hy]
  | trans h1 h2 ih1 ih2 =>
    intro hnd k
    rw [ih1 hnd k, ih2 (((h1.map Prod.fst).nodup_iff).mp hnd) k]

theorem filterMap_parse_render (l : List (Str × Str))
    (hgood : ∀ p ∈ l, goodEnvKey p.1 = true ∧ goodEnvVal p.2 = true) :
    (l.map (fun p => p.1 ++ '=' :: p.2)).filterMap parseEnvLine = l := by
  induction l with
  | nil => rfl
  | cons p rest ih =>
    obtain ⟨h1, h2⟩ := hgood p (List.mem_cons_self p rest)
    simp only [goodEnvVal, Bool.and_eq_true, decide_eq_true_eq] at h2
    obtain ⟨⟨hv, hnl⟩, _⟩ := h2
    simp [List.map_cons, List.filterMap_cons, parseEnvLine_mk h1 hv hnl,
      ih (fun q hq => hgood q (List.mem_cons_of_mem _ hq))]

/-- C1, amended: for environments whose keys have the regex-accepted
shape (letter first, word characters throughout) and whose stored values
are non-empty, newline-free and fixed points of the `Set` normalization,
`EnvironmentFromSlice (e.ToSlice)` reconstructs exactly the key/value
mapping of `e` (on POSIX; Go map equality, i.e. pointwise reads). The
unamended claim fails for empty stored values and for values containing
newlines, which the line regex `(.+)` cannot round-trip. -/
theorem environment_roundtrip (e : Environment)
    (hnd : (e.env.map Prod.fst).Nodup)
    (hgood : ∀ p ∈ e.env, goodEnvKey p.1 = true ∧ goodEnvVal p.2 = true) :
    ∀ k : Str, (EnvironmentFromSlice e.ToSlice).find k = e.find k := by
  intro k
  have hperm : e.ToSlice.Perm (e.env.map (fun p => p.1 ++ '=' :: p.2)) :=
    List.perm_insertionSort strLe _
  have hall : ∀ l ∈ e.ToSlice, (parseEnvLine l).isSome = true := by
    intro l hl
    have hmem : l ∈ e.env.map (fun p => p.1 ++ '=' :: p.2) := hperm.mem_iff.mp hl
    obtain ⟨p, hp, rfl⟩ := List.mem_map.mp hmem
    obtain ⟨h1, h2⟩ := hgood p hp
    simp only [goodEnvVal, Bool.and_eq_true, decide_eq_true_eq] at h2
    rw [parseEnvLine_mk h1 h2.1.1 h2.1.2]
    rfl
  rw [environmentFromSlice_foldl _ hall]
  have hpsperm : (e.ToSlice.filterMap parseEnvLine).Perm e.env := by
    have hstep : (e.ToSlice.filterMap parseEnvLine).Perm
        ((e.env.map (fun p => p.1 ++ '=' :: p.2)).filterMap parseEnvLine) :=
      List.Perm.filterMap _ hperm
    rwa [filterMap_parse_render e.env hgood] at hstep
  have hgood2 : ∀ p ∈ e.ToSlice.filterMap parseEnvLine,
      goodEnvKey p.1 = true ∧ Environment.setValueNorm p.2 = p.2 := by
    intro p hp
    have := hgood p (hpsperm.mem_iff.mp hp)
    refine ⟨this.1, ?_⟩
    have h2 := this.2
    simp only [goodEnvVal, Bool.and_eq_true, decide_eq_true_eq] at h2
    exact h2.2
  have hndps : ((e.ToSlice.filterMap parseEnvLine).map Prod.fst).Nodup :=
    ((hpsperm.map Prod.fst).nodup_iff).mpr hnd
  rw [show Environment.empty = (⟨[]⟩ : Environment) from rfl]
  rw [foldl_set_eq_assign _ hgood2 []]
  show mapIndex _ k = e.find k
  rw [foldl_assign_mapIndex _ hndps k []]
  rw [find?_key_perm hpsperm hndps k]
  unfold Environment.find mapIndex
  cases e.env.find? (fun q => decide (q.1 = k)) <;> rfl

/-- C1, witness at the singleton environment `{A ↦ b}`. -/
theorem environment_roundtrip_witness :
    (EnvironmentFromSlice (⟨[(str "A", str "b")]⟩ : Environment).ToSlice).find (str "A") =
      (⟨[(str "A", str "b")]⟩ : Environment).find (str "A") :=
  environment_roundtrip ⟨[(str "A", str "b")]⟩ (by decide) (by decide) (str "A")

theorem foldl_set_mem (l : List (Str × Str)) :
    ∀ (c : Environment) (q : Str × Str),
      q ∈ (l.foldl (fun c p => c.Set p.1 p.2) c).env →
      q ∈ c.env ∨ ∃ p ∈ l, q = (Environment.setKeyNorm p.1, Environment.setValueNorm p.2) := by
  induction l with
  | nil => intro c q h; exact Or.inl h
  | cons p rest ih =>
    intro c q h
    simp only [List.foldl_cons] at h
    rcases ih (c.Set p.1 p.2) q h with h1 | ⟨r, hr, hq⟩
    · rcases mapAssign_mem h1 with h2 | h2
      · exact Or.inl h2
      · exact Or.inr ⟨p, List.mem_cons_self p rest, h2⟩
    · exact Or.inr ⟨r, List.mem_cons_of_mem _ hr, hq⟩

theorem foldl_diff_mem (other : Environment) (l : List (Str × Str)) :
    ∀ (d : Environment) (q : Str × Str),
      q ∈ (l.foldl (fun d p => if other.Get p.1 ≠ p.2 then d.Set p.1 p.2 else d) d).env →
      q ∈ d.env ∨ ∃ p ∈ l, other.Get p.1 ≠ p.2 ∧
        q = (Environment.setKeyNorm p.1, Environment.setValueNorm p.2) := by
  induction l with
  | nil => intro d q h; exact Or.inl h
  | cons p rest ih =>
    intro d q h
    simp only [List.foldl_cons] at h
    by_cases hc : other.Get p.1 ≠ p.2
    · rw [if_pos hc] at h
      rcases ih (d.Set p.1 p.2) q h with h1 | ⟨r, hr, hrc, hq⟩
      · rcases mapAssign_mem h1 with h2 | h2
        · exact Or.inl h2
        · exact Or.inr ⟨p, List.mem_cons_self p rest, hc, h2⟩
      · exact Or.inr ⟨r, List.mem_cons_of_mem _ hr, hrc, hq⟩
    · rw [if_neg hc] at h
      rcases ih d q h with h1 | ⟨r, hr, hrc, hq⟩
      · exact Or.inl h1
      · exact Or.inr ⟨r, List.mem_cons_of_mem _ hr, hrc, hq⟩

/-- C10, amended: `Set` stores the binding under the trimmed key with the
trimmed/unquoted/escape-expanded value; every binding a `Merge` adds and
every binding a `Diff` emits has passed through that normalization; but
`Copy` duplicates the environment verbatim, without re-normalizing, and
`Get` after `Set` can return a different string from the one given. -/
theorem set_normalizes_writes :
    (∀ (e : Environment) (k v : Str),
      (e.Set k v).find (Environment.setKeyNorm k) = some (Environment.setValueNorm v)) ∧
    (∀ (e other : Environment) (q : Str × Str), q ∈ (e.Merge other).env →
      q ∈ e.env ∨ ∃ p ∈ other.env,
        q = (Environment.setKeyNorm p.1, Environment.setValueNorm p.2)) ∧
    (∀ (e other : Environment) (q : Str × Str), q ∈ (e.Diff other).env →
      ∃ p ∈ e.env, other.Get p.1 ≠ p.2 ∧
        q = (Environment.setKeyNorm p.1, Environment.setValueNorm p.2)) ∧
    (∀ e : Environment, e.Copy = e) ∧
    (Environment.empty.Set (str "K") (str " x ")).Get (str "K") ≠ str " x " := by
  refine ⟨?_, ?_, ?_, ?_, by decide⟩
  · intro e k v
    unfold Environment.Set Environment.find
    rw [mapIndex_assign, if_pos rfl]
  · intro e other q h
    exact foldl_set_mem other.env e.Copy q h
  · intro e other q h
    rcases foldl_diff_mem other e.env Environment.empty q h with h1 | h1
    · exact absurd h1 (by simp [Environment.empty])
    · exact h1
  · intro e; rfl

/-- C10, witness: a Merge entry at a concrete input is a normalized write. -/
theorem set_normalizes_writes_witness :
    (str "K", str "v") ∈ (Environment.empty : Environment).env ∨
      ∃ p ∈ (⟨[(str "K", str " v ")]⟩ : Environment).env,
        (str "K", str "v") = (Environment.setKeyNorm p.1, Environment.setValueNorm p.2) :=
  set_normalizes_writes.2.1 Environment.empty ⟨[(str "K", str " v ")]⟩
    (str "K", str "v") (by decide)

theorem foldl_preserve {α β : Type} (P : α → Prop) (f : α → β → α)
    (hstep : ∀ s b, P s → P (f s b)) :
    ∀ (l : List β) (s : α), P s → P (l.foldl f s) := by
  intro l
  induction l with
  | nil => intro s h; exact h
  | cons b rest ih => intro s h; exact ih _ (hstep s b h)

theorem walkStep_inv (conf : CollectConfig) (fs : FileSystem) (lp : FPath)
    (s : CollectState) (e : FPath × FNode)
    (h : ((s.artifacts.map (fun a => a.absolutePath)).Nodup ∧
      ∀ a ∈ s.artifacts, a.absolutePath ∈ s.seenPaths)) :
    (((walkStep conf fs lp s e).artifacts.map (fun a => a.absolutePath)).Nodup ∧
      ∀ a ∈ (walkStep conf fs lp s e).artifacts,
        a.absolutePath ∈ (walkStep conf fs lp s e).seenPaths) := by
  unfold walkStep
  split
  · exact h
  · rename_i hseen
    split
    · exact h
    · constructor
      · simp only [List.map_append, List.map_cons, List.map_nil, List.nodup_append]
        refine ⟨h.1, List.nodup_singleton _, ?_⟩
        intro x hx hx2
        simp only [List.mem_singleton] at hx2
        subst hx2
        obtain ⟨a, ha, ha2⟩ := List.mem_map.mp hx
        exact hseen (ha2 ▸ h.2 a ha)
      · intro a ha
        simp only [List.mem_append, List.mem_singleton] at ha
        rcases ha with ha | ha
        · exact List.mem_append_left _ (h.2 a ha)
        · subst ha
          exact List.mem_append_right _ (List.mem_singleton_self _)

theorem globFileStep_inv (conf : CollectConfig) (fs : FileSystem) (pat : FPath)
    (s : CollectState) (f : FPath)
    (h : ((s.artifacts.map (fun a => a.absolutePath)).Nodup ∧
      ∀ a ∈ s.artifacts, a.absolutePath ∈ s.seenPaths)) :
    (((globFileStep conf fs pat s f).artifacts.map (fun a => a.absolutePath)).Nodup ∧
      ∀ a ∈ (globFileStep conf fs pat s f).artifacts,
        a.absolutePath ∈ (globFileStep conf fs pat s f).seenPaths) := by
  unfold globFileStep
  split
  · exact h
  · rename_i hseen
    have hgrow : ∀ a ∈ s.artifacts, a.absolutePath ∈ s.seenPaths ++ [f] :=
      fun a ha => List.mem_append_left _ (h.2 a ha)
    split
    · exact ⟨h.1, hgrow⟩
    · split
      · exact ⟨h.1, hgrow⟩
      · constructor
        · simp only [List.map_append, List.map_cons, List.map_nil, List.nodup_append]
          refine ⟨h.1, List.nodup_singleton _, ?_⟩
          intro x hx hx2
          simp only [List.mem_singleton] at hx2
          subst hx2
          obtain ⟨a, ha, ha2⟩ := List.mem_map.mp hx
          exact hseen (ha2 ▸ h.2 a ha)
        · intro a ha
          simp only [List.mem_append, List.mem_singleton] at ha
          rcases ha with ha | ha
          · exact List.mem_append_left _ (h.2 a ha)
          · subst ha
            exact List.mem_append_right _ (List.mem_singleton_self _)

/-- C4, amended: `Collect` produces at most one artifact per
pre-symlink-resolution absolute path — the `seenPaths` keys are the walked
path in the directory pass and the un-resolved absolute path in the glob
pass — so the artifacts' `AbsolutePath` fields are pairwise distinct.
(Artifacts can still alias the same file post-resolution, as the
counterexample shows.) -/
theorem collect_unique_unresolved_path (conf : CollectConfig) (fs : FileSystem)
    (prospects : List FPath) :
    ((Collect conf fs prospects).map (fun a => a.absolutePath)).Nodup := by
  unfold Collect
  have P : CollectState → Prop := fun s =>
    (s.artifacts.map (fun a => a.absolutePath)).Nodup ∧
      ∀ a ∈ s.artifacts, a.absolutePath ∈ s.seenPaths
  have hdir : ∀ (s : CollectState) (lp : FPath),
      ((s.artifacts.map (fun a => a.absolutePath)).Nodup ∧
        ∀ a ∈ s.artifacts, a.absolutePath ∈ s.seenPaths) →
      (((dirProspectStep conf fs s lp).artifacts.map (fun a => a.absolutePath)).Nodup ∧
        ∀ a ∈ (dirProspectStep conf fs s lp).artifacts,
          a.absolutePath ∈ (dirProspectStep conf fs s lp).seenPaths) := by
    intro s lp h
    unfold dirProspectStep
    split
    · exact h
    · split
      · exact foldl_preserve _ _ (walkStep_inv conf fs lp) (fs.walkDir lp) s h
      · exact h
  have hglob : ∀ (s : CollectState) (pat : FPath),
      ((s.artifacts.map (fun a => a.absolutePath)).Nodup ∧
        ∀ a ∈ s.artifacts, a.absolutePath ∈ s.seenPaths) →
      (((globProspectStep conf fs s pat).artifacts.map (fun a => a.absolutePath)).Nodup ∧
        ∀ a ∈ (globProspectStep conf fs s pat).artifacts,
          a.absolutePath ∈ (globProspectStep conf fs s pat).seenPaths) := by
    intro s pat h
    exact foldl_preserve _ _ (globFileStep_inv conf fs pat) (globExpand fs pat) s h
  have h1 := foldl_preserve _ (dirProspectStep conf fs) hdir prospects ⟨[], []⟩
    ⟨List.nodup_nil, by intro a ha; exact absurd ha (List.not_mem_nil a)⟩
  exact (foldl_preserve _ (globProspectStep conf fs) hglob prospects _ h1).1

/-- C3, witness: the concrete single-timestamp state flushes cursor 0,
length 1, payload `{0 ↦ t0}`. -/
theorem headerTimesUpload_advances_witness :
    0 = (HeaderTimes.mk [str "t0"] 0).cursor ∧
    1 = (HeaderTimes.mk [str "t0"] 0).times.length ∧
    ([((0 : Nat), str "t0")].map Prod.fst =
      List.range' (HeaderTimes.mk [str "t0"] 0).cursor
        ((HeaderTimes.mk [str "t0"] 0).times.length -
          (HeaderTimes.mk [str "t0"] 0).cursor)) ∧
    ([((0 : Nat), str "t0")].map Prod.snd =
      (HeaderTimes.mk [str "t0"] 0).times.drop (HeaderTimes.mk [str "t0"] 0).cursor) :=
  (headerTimesUpload_advances_unconditionally ⟨[str "t0"], 0⟩ false true).2.2.2.2.1
    0 1 [((0 : Nat), str "t0")] false (by decide)

theorem lexLeb_total (a : Str) : ∀ b, lexLeb a b = true ∨ lexLeb b a = true := by
  induction a with
  | nil => intro b; exact Or.inl rfl
  | cons x xs ih =>
    intro b
    cases b with
    | nil => exact Or.inr rfl
    | cons y ys =>
      rcases Nat.lt_trichotomy x.toNat y.toNat with h | h | h
      · left
        simp [lexLeb, h]
      · rcases ih ys with h2 | h2
        · left
          simp [lexLeb, h, h2, Nat.lt_irrefl]
        · right
          simp [lexLeb, h, h2, Nat.lt_irrefl]
      · right
        simp [lexLeb, h]

theorem lexLeb_trans (a : Str) : ∀ b c, lexLeb a b = true → lexLeb b c = true →
    lexLeb a c = true := by
  induction a with
  | nil => intro b c _ _; rfl
  | cons x xs ih =>
    intro b c hab hbc
    cases b with
    | nil => exact absurd hab (by simp [lexLeb])
    | cons y ys =>
      cases c with
      | nil => exact absurd hbc (by simp [lexLeb])
      | cons z zs =>
        simp only [lexLeb] at hab hbc ⊢
        split at hab
        · rename_i hxy
          split at hbc
          · rename_i hyz
            rw [if_pos (Nat.lt_trans hxy hyz)]
          · split at hbc
            · rename_i hyz
              rw [if_pos (hyz ▸ hxy)]
            · exact absurd hbc (by simp)
        · split at hab
          · rename_i hxy
            split at hbc
            · rename_i hyz
              rw [if_pos (hxy ▸ hyz)]
            · split at hbc
              · rename_i hyz
                rw [hxy, hyz]
                rw [if_neg (Nat.lt_irrefl _), if_pos rfl]
                exact ih ys zs hab hbc
              · exact absurd hbc (by simp)
          · exact absurd hab (by simp)

instance : IsTotal Str strLe := ⟨fun a b => lexLeb_total a b⟩

instance : IsTrans Str strLe := ⟨fun a b c => lexLeb_trans a b c⟩

theorem sortStrings_sorted_perm (l : List Str) :
    List.Sorted strLe (sortStrings l) ∧ (sortStrings l).Perm l :=
  ⟨List.sorted_insertionSort strLe l, List.perm_insertionSort strLe l⟩

theorem foldl_append_flat {α β : Type} (g : α → List β) (l : List α) :
    ∀ acc : List β, l.foldl (fun acc x => acc ++ g x) acc = acc ++ l.flatMap g := by
  induction l with
  | nil => intro acc; simp
  | cons x rest ih => intro acc; simp [List.flatMap_cons, ih, List.append_assoc]

theorem configurationToEnvironment_perm (p : Plugin) :
    (ConfigurationToEnvironment p).Perm
      (p.Configuration.flatMap (fun kv => configEntryVars (PluginName p) kv.1 kv.2)) := by
  unfold ConfigurationToEnvironment sortStrings
  rw [foldl_append_flat (fun kv => configEntryVars (PluginName p) kv.1 kv.2)
    p.Configuration []]
  simpa using List.perm_insertionSort strLe _

theorem char_toNat_ofNat {n : Nat} (h : Nat.isValidChar n) : (Char.ofNat n).toNat = n := by
  unfold Char.ofNat
  rw [dif_pos h]
  unfold Char.ofNatAux Char.toNat
  simp [UInt32.toNat]

theorem char_toNat_inj {a b : Char} (h : a.toNat = b.toNat) : a = b :=
  Char.ext (UInt32.ext h)

theorem toUpper_toNat (c : Char) :
    (Char.toUpper c).toNat =
      if 97 ≤ c.toNat ∧ c.toNat ≤ 122 then c.toNat - 32 else c.toNat := by
  by_cases h : 97 ≤ c.toNat ∧ c.toNat ≤ 122
  · have h1 : Char.toUpper c = Char.ofNat (c.toNat - 32) := by
      unfold Char.toUpper
      show (if c.toNat ≥ 97 ∧ c.toNat ≤ 122 then Char.ofNat (c.toNat - 32) else c) = _
      rw [if_pos h]
    rw [h1, char_toNat_ofNat (Or.inl (by omega)), if_pos h]
  · have h1 : Char.toUpper c = c := by
      unfold Char.toUpper
      show (if c.toNat ≥ 97 ∧ c.toNat ≤ 122 then Char.ofNat (c.toNat - 32) else c) = c
      rw [if_neg h]
    rw [h1, if_neg h]

theorem isLower_eq_toNat (c : Char) :
    c.isLower = (decide (97 ≤ c.toNat) && decide (c.toNat ≤ 122)) := rfl

theorem toUpper_not_lower (c : Char) : (Char.toUpper c).isLower = false := by
  rw [isLower_eq_toNat, toUpper_toNat]
  split <;> rename_i h
  · simp only [Bool.and_eq_false_iff, decide_eq_false_iff_not]
    left
    omega
  · simp only [Bool.and_eq_false_iff, decide_eq_false_iff_not]
    omega

theorem regexSpace_toUpper (c : Char) :
    isRegexSpace (Char.toUpper c) = isRegexSpace c := by
  rw [Bool.eq_iff_iff]
  simp only [isRegexSpace, Bool.or_eq_true, beq_iff_eq, toUpper_toNat]
  split <;> omega

theorem toUpper_dash_iff (c : Char) : Char.toUpper c = '-' ↔ c = '-' := by
  constructor
  · intro h
    apply char_toNat_inj
    have h2 := congrArg Char.toNat h
    rw [toUpper_toNat] at h2
    have h3 : ('-').toNat = 45 := rfl
    rw [h3] at h2 ⊢
    split at h2 <;> omega
  · intro h
    subst h
    rfl

theorem collapseRunsAux_mem {p : Char → Bool} {r : Char} :
    ∀ {b : Bool} {s : Str} {c : Char}, c ∈ collapseRunsAux p r b s →
      c = r ∨ (c ∈ s ∧ p c = false) := by
  intro b s
  induction s generalizing b with
  | nil => intro c h; exact absurd h (List.not_mem_nil c)
  | cons x rest ih =>
    intro c h
    unfold collapseRunsAux at h
    split at h
    · split at h
      · rcases ih h with h2 | h2
        · exact Or.inl h2
        · exact Or.inr ⟨List.mem_cons_of_mem _ h2.1, h2.2⟩
      · simp only [List.mem_cons] at h
        rcases h with h | h
        · exact Or.inl h
        · rcases ih h with h2 | h2
          · exact Or.inl h2
          · exact Or.inr ⟨List.mem_cons_of_mem _ h2.1, h2.2⟩
    · rename_i hx
      simp only [List.mem_cons] at h
      rcases h with h | h
      · subst h
        exact Or.inr ⟨List.mem_cons_self c rest, Bool.of_not_eq_true hx⟩
      · rcases ih h with h2 | h2
        · exact Or.inl h2
        · exact Or.inr ⟨List.mem_cons_of_mem _ h2.1, h2.2⟩

theorem dashWsAux_mem :
    ∀ {b : Bool} {s : Str} {c : Char}, c ∈ dashWsAux b s →
      c = '_' ∨ (c ∈ s ∧ c ≠ '-' ∧ isRegexSpace c = false) := by
  intro b s
  induction s generalizing b with
  | nil => intro c h; exact absurd h (List.not_mem_nil c)
  | cons x rest ih =>
    intro c h
    unfold dashWsAux at h
    split at h
    · simp only [List.mem_cons] at h
      rcases h with h | h
      · exact Or.inl h
      · rcases ih h with h2 | h2
        · exact Or.inl h2
        · exact Or.inr ⟨List.mem_cons_of_mem _ h2.1, h2.2⟩
    · split at h
      · split at h
        · rcases ih h with h2 | h2
          · exact Or.inl h2
          · exact Or.inr ⟨List.mem_cons_of_mem _ h2.1, h2.2⟩
        · simp only [List.mem_cons] at h
          rcases h with h | h
          · exact Or.inl h
          · rcases ih h with h2 | h2
            · exact Or.inl h2
            · exact Or.inr ⟨List.mem_cons_of_mem _ h2.1, h2.2⟩
      · rename_i hdash hws
        simp only [List.mem_cons] at h
        rcases h with h | h
        · subst h
          exact Or.inr ⟨List.mem_cons_self c rest, hdash, Bool.of_not_eq_true hws⟩
        · rcases ih h with h2 | h2
          · exact Or.inl h2
          · exact Or.inr ⟨List.mem_cons_of_mem _ h2.1, h2.2⟩

theorem collapseRunsAux_head_true {p : Char → Bool} {r : Char} :
    ∀ (s : Str) {c : Char}, (collapseRunsAux p r true s).head? = some c → p c = false := by
  intro s
  induction s with
  | nil => intro c h; exact absurd h (by simp [collapseRunsAux])
  | cons x rest ih =>
    intro c h
    unfold collapseRunsAux at h
    split at h
    · rw [if_pos rfl] at h
      exact ih h
    · rename_i hx
      simp only [List.head?_cons, Option.some_inj] at h
      subst h
      exact Bool.of_not_eq_true hx

theorem collapseRunsAux_chain {p : Char → Bool} {r : Char} :
    ∀ (b : Bool) (s : Str),
      List.Chain' (fun a d => ¬(p a = true ∧ p d = true)) (collapseRunsAux p r b s) := by
  intro b s
  induction s generalizing b with
  | nil => exact List.chain'_nil
  | cons x rest ih =>
    unfold collapseRunsAux
    split
    · split
      · exact ih true
      · rw [List.chain'_cons']
        refine ⟨?_, ih true⟩
        intro y hy
        intro hcon
        have := collapseRunsAux_head_true rest hy
        rw [this] at hcon
        exact absurd hcon.2 (by simp)
    · rename_i hx
      rw [List.chain'_cons']
      refine ⟨?_, ih false⟩
      intro y hy hcon
      exact hx hcon.1

/-- C7, amended: the emitted slice is sorted and is a permutation of the
per-entry emissions; each scalar entry emits `NAME=value` and each string
array element emits `NAME_i=value`; in every emitted key dashes and
whitespace have become underscores, no ASCII lowercase remains, and no
two underscores are adjacent — but a non-alphanumeric character that is
neither a dash nor whitespace (such as `.`) is NOT turned into an
underscore, as the counterexample shows. -/
theorem configurationToEnvironment_emission (p : Plugin) :
    List.Sorted strLe (ConfigurationToEnvironment p) ∧
    (ConfigurationToEnvironment p).Perm
      (p.Configuration.flatMap (fun kv => configEntryVars (PluginName p) kv.1 kv.2)) ∧
    (∀ k s, (k, ConfigValue.s s) ∈ p.Configuration →
      configEnvName (PluginName p) k ++ '=' :: s ∈ ConfigurationToEnvironment p) ∧
    (∀ (k : Str) (vs : List Str) (i : Nat) (hi : i < vs.length),
      (k, ConfigValue.strList vs) ∈ p.Configuration →
      configEnvName (PluginName p) k ++ '_' :: (natToStr i ++ '=' :: vs[i]) ∈
        ConfigurationToEnvironment p) ∧
    (∀ (pname k : Str) (c : Char), c ∈ configEnvName pname k →
      c ≠ '-' ∧ isRegexSpace c = false ∧ c.isLower = false) ∧
    (∀ pname k : Str,
      List.Chain' (fun a b => ¬(a = '_' ∧ b = '_')) (configEnvName pname k)) := by
  have hperm := configurationToEnvironment_perm p
  refine ⟨?_, hperm, ?_, ?_, ?_, ?_⟩
  · unfold ConfigurationToEnvironment
    exact List.sorted_insertionSort strLe _
  · intro k s hmem
    rw [hperm.mem_iff]
    exact List.mem_flatMap.mpr ⟨(k, ConfigValue.s s), hmem,
      List.mem_singleton_self _⟩
  · intro k vs i hi hmem
    rw [hperm.mem_iff]
    refine List.mem_flatMap.mpr ⟨(k, ConfigValue.strList vs), hmem, ?_⟩
    have hi2 : i < vs.enum.length := by rw [List.enum_length]; exact hi
    have he : vs.enum[i] = (i, vs[i]) := List.getElem_enum vs i hi2
    have hm : (i, vs[i]) ∈ vs.enum := he ▸ List.getElem_mem hi2
    exact List.mem_map_of_mem
      (fun q => configEnvName (PluginName p) k ++ '_' :: (natToStr q.1 ++ '=' :: q.2)) hm
  · intro pname k c hc
    unfold configEnvName underscoreCollapse collapseRuns at hc
    rcases collapseRunsAux_mem hc with rfl | ⟨hmem, _⟩
    · exact ⟨by decide, by decide, by decide⟩
    · obtain ⟨d, hd, rfl⟩ := List.mem_map.mp hmem
      rcases dashWsAux_mem hd with rfl | ⟨_, hdash, hws⟩
      · exact ⟨by decide, by decide, by decide⟩
      · refine ⟨fun hcon => hdash ((toUpper_dash_iff d).mp hcon), ?_,
          toUpper_not_lower d⟩
        rw [regexSpace_toUpper]
        exact hws
  · intro pname k
    unfold configEnvName underscoreCollapse collapseRuns
    have hch := collapseRunsAux_chain (p := fun c => c == '_') (r := '_') false
      ((dashWsToUnderscore
        ((str "BUILDKITE_PLUGIN_") ++ pname ++ '_' :: collapseRuns isRegexSpace ' ' k)).map
          Char.toUpper)
    refine List.Chain'.imp ?_ hch
    intro a b hab hcon
    exact hab ⟨by rw [hcon.1]; rfl, by rw [hcon.2]; rfl⟩

/-- C7, witness: the scalar entry of the concrete plugin is emitted with
the code's key transformation. -/
theorem configurationToEnvironment_emission_witness :
    configEnvName (PluginName dotPlugin) (str "a.b") ++ '=' :: str "x" ∈
      ConfigurationToEnvironment dotPlugin :=
  (configurationToEnvironment_emission dotPlugin).2.2.1 (str "a.b") (str "x") (by decide)

theorem plainSeg_props {c : Char} (h : plainSegChar c = true) :
    urlSafeChar c = true ∧ c ≠ ':' ∧ c ≠ '/' ∧ c ≠ '#' := by
  refine ⟨?_, ?_, ?_, ?_⟩
  · simp only [plainSegChar, Bool.or_eq_true] at h
    simp only [urlSafeChar, Bool.or_eq_true]
    tauto
  · intro heq; rw [heq] at h; exact absurd h (by decide)
  · intro heq; rw [heq] at h; exact absurd h (by decide)
  · intro heq; rw [heq] at h; exact absurd h (by decide)

theorem plainSeg_not_mem {s : Str} (hall : ∀ c ∈ s, plainSegChar c = true) :
    (':' : Char) ∉ s ∧ ('/' : Char) ∉ s ∧ ('#' : Char) ∉ s := by
  refine ⟨fun hm => ?_, fun hm => ?_, fun hm => ?_⟩
  · exact absurd (hall _ hm) (by decide)
  · exact absurd (hall _ hm) (by decide)
  · exact absurd (hall _ hm) (by decide)

theorem locationSchemeMatch_no_colon {s : Str} (h : (':' : Char) ∉ s) :
    locationSchemeMatch s = false := by
  have h2 : goStartsWith (str "://")
      (s.drop (s.takeWhile (fun c => c.isLower || c == '+')).length) = false := by
    cases hdrop : s.drop (s.takeWhile (fun c => c.isLower || c == '+')).length with
    | nil => decide
    | cons c rest =>
      have hc : c ∈ s := List.drop_subset _ s (hdrop ▸ List.mem_cons_self c rest)
      have hcc : (':' == c) = false := by
        simp only [beq_eq_false_iff_ne, ne_eq]
        intro heq
        exact h (heq ▸ hc)
      show ([':', '/', '/'] : Str).isPrefixOf (c :: rest) = false
      simp [List.isPrefixOf, hcc]
  unfold locationSchemeMatch
  simp only [h2, Bool.and_false]

theorem splitOnChar_no_sep {t : Char} : ∀ {s : Str}, t ∉ s → splitOnChar t s = [s] := by
  intro s
  induction s with
  | nil => intro _; rfl
  | cons c rest ih =>
    intro h
    have hc : ¬(c = t) := fun hc => h (hc ▸ List.mem_cons_self c rest)
    rw [show splitOnChar t (c :: rest) =
      (c :: (splitOnChar t rest).headI) :: (splitOnChar t rest).tail from by
        simp [splitOnChar, hc]]
    rw [ih (fun hm => h (List.mem_cons_of_mem _ hm))]
    rfl

theorem splitOnChar_sep {t : Char} {a : Str} (b : Str) (ha : t ∉ a) :
    splitOnChar t (a ++ t :: b) = a :: splitOnChar t b := by
  induction a with
  | nil => simp [splitOnChar]
  | cons c a2 ih =>
    have hc : ¬(c = t) := fun hc => ha (hc ▸ List.mem_cons_self c a2)
    rw [List.cons_append,
      show splitOnChar t (c :: (a2 ++ t :: b)) =
        (c :: (splitOnChar t (a2 ++ t :: b)).headI) ::
          (splitOnChar t (a2 ++ t :: b)).tail from by simp [splitOnChar, hc]]
    rw [ih (fun hm => ha (List.mem_cons_of_mem _ hm))]
    rfl

theorem splitAtFirst_no {t : Char} : ∀ {s : Str}, t ∉ s → splitAtFirst t s = (s, none) := by
  intro s
  induction s with
  | nil => intro _; rfl
  | cons c rest ih =>
    intro h
    have hc : ¬(c = t) := fun hc => h (hc ▸ List.mem_cons_self c rest)
    rw [show splitAtFirst t (c :: rest) =
      (c :: (splitAtFirst t rest).1, (splitAtFirst t rest).2) from by
        simp [splitAtFirst, hc]]
    rw [ih (fun hm => h (List.mem_cons_of_mem _ hm))]

theorem splitAtFirst_sep {t : Char} {a : Str} (b : Str) (ha : t ∉ a) :
    splitAtFirst t (a ++ t :: b) = (a, some b) := by
  induction a with
  | nil => simp [splitAtFirst]
  | cons c a2 ih =>
    have hc : ¬(c = t) := fun hc => ha (hc ▸ List.mem_cons_self c a2)
    rw [List.cons_append,
      show splitAtFirst t (c :: (a2 ++ t :: b)) =
        (c :: (splitAtFirst t (a2 ++ t :: b)).1, (splitAtFirst t (a2 ++ t :: b)).2) from by
          simp [splitAtFirst, hc]]
    rw [ih (fun hm => ha (List.mem_cons_of_mem _ hm))]

theorem all_of_sublist {q : Char → Bool} {l l2 : Str} (hsub : l2.Sublist l)
    (h : l.all q = true) : l2.all q = true := by
  rw [List.all_eq_true] at h ⊢
  exact fun x hx => h x (hsub.subset hx)

theorem goURLParse_core (hp frag : Str) (hsafe : hp.all urlSafeChar = true)
    (hfsafe : frag.all urlSafeChar = true) (s : Str) (osome : Option Str)
    (hsplit : splitAtFirst '#' s = (str "https://" ++ hp, osome))
    (hfrag : osome.getD [] = frag) :
    goURLParse s = some ⟨str "https", hp.takeWhile (fun c => c != '/'),
      hp.drop (hp.takeWhile (fun c => c != '/')).length, frag⟩ := by
  have h1 : (str "https://" ++ hp).takeWhile (fun c => c != ':') = str "https" := by
    rw [show str "https://" ++ hp = str "https" ++ ':' :: ('/' :: '/' :: hp) from rfl]
    exact takeWhile_all_stop _ (by decide) (by decide)
  have h2 : (str "https://" ++ hp).drop (str "https").length = ':' :: '/' :: '/' :: hp := by
    rw [show str "https://" ++ hp = str "https" ++ ':' :: ('/' :: '/' :: hp) from rfl]
    exact List.drop_left _ _
  have h3 : goStartsWith (str "://") (':' :: '/' :: '/' :: hp) = true := by
    show ([':', '/', '/'] : Str).isPrefixOf ([':', '/', '/'] ++ hp) = true
    rw [List.isPrefixOf_iff_prefix]
    exact List.prefix_append _ _
  have hhost : ((hp.takeWhile (fun c => c != '/')).all urlSafeChar) = true :=
    all_of_sublist (List.takeWhile_sublist _) hsafe
  have hpath : ((hp.drop (hp.takeWhile (fun c => c != '/')).length).all urlSafeChar) = true :=
    all_of_sublist (List.drop_sublist _ _) hsafe
  unfold goURLParse
  rw [hsplit]
  simp only [hfrag, h1, h2, h3, hhost, hpath, hfsafe]
  simp
  exact ⟨by decide, by decide, List.all_eq_true.mp hhost, List.all_eq_true.mp hpath⟩

theorem goURLParse_with_frag (hp frag : Str) (hsafe : hp.all urlSafeChar = true)
    (hhash : ('#' : Char) ∉ hp) (hfsafe : frag.all urlSafeChar = true) :
    goURLParse (str "https://" ++ (hp ++ '#' :: frag)) =
      some ⟨str "https", hp.takeWhile (fun c => c != '/'),
        hp.drop (hp.takeWhile (fun c => c != '/')).length, frag⟩ := by
  refine goURLParse_core hp frag hsafe hfsafe _ (some frag) ?_ rfl
  rw [show str "https://" ++ (hp ++ '#' :: frag) =
    (str "https://" ++ hp) ++ '#' :: frag from by simp [List.append_assoc]]
  refine splitAtFirst_sep frag ?_
  intro hm
  rcases List.mem_append.mp hm with hm | hm
  · exact absurd hm (by decide)
  · exact hhash hm

theorem goURLParse_no_frag (hp : Str) (hsafe : hp.all urlSafeChar = true)
    (hhash : ('#' : Char) ∉ hp) :
    goURLParse (str "https://" ++ hp) =
      some ⟨str "https", hp.takeWhile (fun c => c != '/'),
        hp.drop (hp.takeWhile (fun c => c != '/')).length, []⟩ := by
  refine goURLParse_core hp [] hsafe rfl _ none ?_ rfl
  refine splitAtFirst_no ?_
  intro hm
  rcases List.mem_append.mp hm with hm | hm
  · exact absurd hm (by decide)
  · exact hhash hm

theorem plainSeg_url_safe {s : Str} (h : ∀ c ∈ s, plainSegChar c = true) :
    s.all urlSafeChar = true :=
  List.all_eq_true.mpr (fun c hc => (plainSeg_props (h c hc)).1)

/-- C6: a scheme-less `owner/repo` location resolves to
`https://github.com/owner/repo`, a bare name to
`https://github.com/buildkite-plugins/name`; a `#version` fragment
becomes the version and a missing fragment defaults to `master` (the
default-branch indicator), for well-formed segment/version strings
(letters, digits, `-`, `_`, `.`). -/
theorem resolvePluginLocation_resolution (owner repo ver : Str)
    (howner : ∀ c ∈ owner, plainSegChar c = true) (hone : owner ≠ [])
    (hrepo : ∀ c ∈ repo, plainSegChar c = true) (hrne : repo ≠ [])
    (hver : ∀ c ∈ ver, plainSegChar c = true) (hvne : ver ≠ []) :
    ResolvePluginLocation (owner ++ '/' :: repo) =
      some (str "https://github.com/" ++ (owner ++ '/' :: (repo ++ str "#master"))) ∧
    ResolvePluginLocation (owner ++ '/' :: (repo ++ '#' :: ver)) =
      some (str "https://github.com/" ++ (owner ++ '/' :: (repo ++ '#' :: ver))) ∧
    ResolvePluginLocation owner =
      some (str "https://github.com/buildkite-plugins/" ++ (owner ++ str "#master")) ∧
    ResolvePluginLocation (owner ++ '#' :: ver) =
      some (str "https://github.com/buildkite-plugins/" ++ (owner ++ '#' :: ver)) := by
  obtain ⟨hoc, hos, hoh⟩ := plainSeg_not_mem howner
  obtain ⟨hrc, hrs, hrh⟩ := plainSeg_not_mem hrepo
  obtain ⟨hvc, hvs, hvh⟩ := plainSeg_not_mem hver
  refine ⟨?_, ?_, ?_, ?_⟩
  · -- owner/repo, no version
    have hcm : locationSchemeMatch (owner ++ '/' :: repo) = false := by
      refine locationSchemeMatch_no_colon ?_
      intro hm
      rcases List.mem_append.mp hm with hm | hm
      · exact hoc hm
      · rcases List.mem_cons.mp hm with hm | hm
        · exact absurd hm (by decide)
        · exact hrc hm
    have hsplit : splitOnChar '/' (owner ++ '/' :: repo) = [owner, repo] := by
      rw [splitOnChar_sep repo hos, splitOnChar_no_sep hrs]
    have hp1 : (str "github.com/" ++ (owner ++ '/' :: repo)).all urlSafeChar = true := by
      rw [List.all_append]
      have h9 : (owner ++ '/' :: repo).all urlSafeChar = true := by
        rw [List.all_eq_true]
        intro c hc
        rcases List.mem_append.mp hc with hc | hc
        · exact (plainSeg_props (howner c hc)).1
        · rcases List.mem_cons.mp hc with hc | hc
          · rw [hc]; decide
          · exact (plainSeg_props (hrepo c hc)).1
      rw [h9]
      decide
    have hp2 : ('#' : Char) ∉ str "github.com/" ++ (owner ++ '/' :: repo) := by
      intro hm
      rcases List.mem_append.mp hm with hm | hm
      · exact absurd hm (by decide)
      · rcases List.mem_append.mp hm with hm | hm
        · exact hoh hm
        · rcases List.mem_cons.mp hm with hm | hm
          · exact absurd hm (by decide)
          · exact hrh hm
    have hparse := goURLParse_no_frag (str "github.com/" ++ (owner ++ '/' :: repo)) hp1 hp2
    have hhost : (str "github.com/" ++ (owner ++ '/' :: repo)).takeWhile
        (fun c => c != '/') = str "github.com" := by
      rw [show str "github.com/" ++ (owner ++ '/' :: repo) =
        str "github.com" ++ '/' :: (owner ++ '/' :: repo) from rfl]
      refine takeWhile_all_stop _ (by decide) (by decide)
    have hpath : (str "github.com/" ++ (owner ++ '/' :: repo)).drop
        (str "github.com").length = '/' :: (owner ++ '/' :: repo) := by
      rw [show str "github.com/" ++ (owner ++ '/' :: repo) =
        str "github.com" ++ '/' :: (owner ++ '/' :: repo) from rfl]
      exact List.drop_left _ _
    rw [hhost, hpath] at hparse
    unfold ResolvePluginLocation
    rw [hcm]
    simp only [Bool.false_eq_true, if_false, hsplit,
      show ([owner, repo].length ≥ 3) = False from by simp,
      show ([owner, repo].length = 2) = True from by simp, if_true, if_false]
    rw [show str "https://github.com/" ++ (owner ++ '/' :: repo) =
      str "https://" ++ (str "github.com/" ++ (owner ++ '/' :: repo)) from rfl]
    rw [hparse]
    simp [GoURL.render, List.append_assoc,
      show ((str "https" : Str) = []) = False from by decide,
      show ((str "master" : Str) = []) = False from by decide]
    rfl
  · -- owner/repo#version
    have hcm : locationSchemeMatch (owner ++ '/' :: (repo ++ '#' :: ver)) = false := by
      refine locationSchemeMatch_no_colon ?_
      intro hm
      rcases List.mem_append.mp hm with hm | hm
      · exact hoc hm
      · rcases List.mem_cons.mp hm with hm | hm
        · exact absurd hm (by decide)
        · rcases List.mem_append.mp hm with hm | hm
          · exact hrc hm
          · rcases List.mem_cons.mp hm with hm | hm
            · exact absurd hm (by decide)
            · exact hvc hm
    have htail : ('/' : Char) ∉ repo ++ '#' :: ver := by
      intro hm
      rcases List.mem_append.mp hm with hm | hm
      · exact hrs hm
      · rcases List.mem_cons.mp hm with hm | hm
        · exact absurd hm (by decide)
        · exact hvs hm
    have hsplit : splitOnChar '/' (owner ++ '/' :: (repo ++ '#' :: ver)) =
        [owner, repo ++ '#' :: ver] := by
      rw [splitOnChar_sep (repo ++ '#' :: ver) hos, splitOnChar_no_sep htail]
    have hp1 : (str "github.com/" ++ (owner ++ '/' :: repo)).all urlSafeChar = true := by
      rw [List.all_append]
      have h9 : (owner ++ '/' :: repo).all urlSafeChar = true := by
        rw [List.all_eq_true]
        intro c hc
        rcases List.mem_append.mp hc with hc | hc
        · exact (plainSeg_props (howner c hc)).1
        · rcases List.mem_cons.mp hc with hc | hc
          · rw [hc]; decide
          · exact (plainSeg_props (hrepo c hc)).1
      rw [h9]
      decide
    have hp2 : ('#' : Char) ∉ str "github.com/" ++ (owner ++ '/' :: repo) := by
      intro hm
      rcases List.mem_append.mp hm with hm | hm
      · exact absurd hm (by decide)
      · rcases List.mem_append.mp hm with hm | hm
        · exact hoh hm
        · rcases List.mem_cons.mp hm with hm | hm
          · exact absurd hm (by decide)
          · exact hrh hm
    have hparse := goURLParse_with_frag (str "github.com/" ++ (owner ++ '/' :: repo)) ver
      hp1 hp2 (plainSeg_url_safe hver)
    have hhost : (str "github.com/" ++ (owner ++ '/' :: repo)).takeWhile
        (fun c => c != '/') = str "github.com" := by
      rw [show str "github.com/" ++ (owner ++ '/' :: repo) =
        str "github.com" ++ '/' :: (owner ++ '/' :: repo) from rfl]
      refine takeWhile_all_stop _ (by decide) (by decide)
    have hpath : (str "github.com/" ++ (owner ++ '/' :: repo)).drop
        (str "github.com").length = '/' :: (owner ++ '/' :: repo) := by
      rw [show str "github.com/" ++ (owner ++ '/' :: repo) =
        str "github.com" ++ '/' :: (owner ++ '/' :: repo) from rfl]
      exact List.drop_left _ _
    rw [hhost, hpath] at hparse
    unfold ResolvePluginLocation
    rw [hcm]
    simp only [Bool.false_eq_true, if_false, hsplit,
      show (([owner, repo ++ '#' :: ver].length ≥ 3)) = False from by simp,
      show (([owner, repo ++ '#' :: ver].length = 2)) = True from by simp,
      if_true, if_false]
    rw [show str "https://github.com/" ++ (owner ++ '/' :: (repo ++ '#' :: ver)) =
      str "https://" ++ ((str "github.com/" ++ (owner ++ '/' :: repo)) ++ '#' :: ver) from by
        simp only [List.append_assoc, List.cons_append]
        rfl]
    rw [hparse]
    simp [GoURL.render, List.append_assoc, hvne,
      show ((str "https" : Str) = []) = False from by decide]
    rfl
  · -- bare name, no version
    have hcm : locationSchemeMatch owner = false := locationSchemeMatch_no_colon hoc
    have hsplit : splitOnChar '/' owner = [owner] := splitOnChar_no_sep hos
    have hp1 : (str "github.com/buildkite-plugins/" ++ owner).all urlSafeChar = true := by
      rw [List.all_append, plainSeg_url_safe howner]
      decide
    have hp2 : ('#' : Char) ∉ str "github.com/buildkite-plugins/" ++ owner := by
      intro hm
      rcases List.mem_append.mp hm with hm | hm
      · exact absurd hm (by decide)
      · exact hoh hm
    have hparse := goURLParse_no_frag (str "github.com/buildkite-plugins/" ++ owner) hp1 hp2
    have hhost : (str "github.com/buildkite-plugins/" ++ owner).takeWhile
        (fun c => c != '/') = str "github.com" := by
      rw [show str "github.com/buildkite-plugins/" ++ owner =
        str "github.com" ++ '/' :: (str "buildkite-plugins/" ++ owner) from rfl]
      refine takeWhile_all_stop _ (by decide) (by decide)
    have hpath : (str "github.com/buildkite-plugins/" ++ owner).drop
        (str "github.com").length = '/' :: (str "buildkite-plugins/" ++ owner) := by
      rw [show str "github.com/buildkite-plugins/" ++ owner =
        str "github.com" ++ '/' :: (str "buildkite-plugins/" ++ owner) from rfl]
      exact List.drop_left _ _
    rw [hhost, hpath] at hparse
    unfold ResolvePluginLocation
    rw [hcm]
    simp only [Bool.false_eq_true, if_false, hsplit,
      show (([owner].length ≥ 3)) = False from by simp,
      show (([owner].length = 2)) = False from by simp, if_false]
    rw [show str "https://github.com/buildkite-plugins/" ++ owner =
      str "https://" ++ (str "github.com/buildkite-plugins/" ++ owner) from rfl]
    rw [hparse]
    simp [GoURL.render, List.append_assoc,
      show ((str "https" : Str) = []) = False from by decide,
      show ((str "master" : Str) = []) = False from by decide]
    rfl
  · -- bare name with version
    have hcm : locationSchemeMatch (owner ++ '#' :: ver) = false := by
      refine locationSchemeMatch_no_colon ?_
      intro hm
      rcases List.mem_append.mp hm with hm | hm
      · exact hoc hm
      · rcases List.mem_cons.mp hm with hm | hm
        · exact absurd hm (by decide)
        · exact hvc hm
    have hsplit : splitOnChar '/' (owner ++ '#' :: ver) = [owner ++ '#' :: ver] := by
      refine splitOnChar_no_sep ?_
      intro hm
      rcases List.mem_append.mp hm with hm | hm
      · exact hos hm
      · rcases List.mem_cons.mp hm with hm | hm
        · exact absurd hm (by decide)
        · exact hvs hm
    have hp1 : (str "github.com/buildkite-plugins/" ++ owner).all urlSafeChar = true := by
      rw [List.all_append, plainSeg_url_safe howner]
      decide
    have hp2 : ('#' : Char) ∉ str "github.com/buildkite-plugins/" ++ owner := by
      intro hm
      rcases List.mem_append.mp hm with hm | hm
      · exact absurd hm (by decide)
      · exact hoh hm
    have hparse := goURLParse_with_frag (str "github.com/buildkite-plugins/" ++ owner) ver
      hp1 hp2 (plainSeg_url_safe hver)
    have hhost : (str "github.com/buildkite-plugins/" ++ owner).takeWhile
        (fun c => c != '/') = str "github.com" := by
      rw [show str "github.com/buildkite-plugins/" ++ owner =
        str "github.com" ++ '/' :: (str "buildkite-plugins/" ++ owner) from rfl]
      refine takeWhile_all_stop _ (by decide) (by decide)
    have hpath : (str "github.com/buildkite-plugins/" ++ owner).drop
        (str "github.com").length = '/' :: (str "buildkite-plugins/" ++ owner) := by
      rw [show str "github.com/buildkite-plugins/" ++ owner =
        str "github.com" ++ '/' :: (str "buildkite-plugins/" ++ owner) from rfl]
      exact List.drop_left _ _
    rw [hhost, hpath] at hparse
    unfold ResolvePluginLocation
    rw [hcm]
    simp only [Bool.false_eq_true, if_false, hsplit,
      show (([owner ++ '#' :: ver].length ≥ 3)) = False from by simp,
      show (([owner ++ '#' :: ver].length = 2)) = False from by simp, if_false]
    rw [show str "https://github.com/buildkite-plugins/" ++ (owner ++ '#' :: ver) =
      str "https://" ++ ((str "github.com/buildkite-plugins/" ++ owner) ++ '#' :: ver) from by
        simp only [List.append_assoc, List.cons_append]
        rfl]
    rw [hparse]
    simp [GoURL.render, List.append_assoc, hvne,
      show ((str "https" : Str) = []) = False from by decide]
    rfl

/-- C6, witness at `docker-compose#v1` and `owner/repo`. -/
theorem resolvePluginLocation_resolution_witness :
    ResolvePluginLocation (str "docker-compose" ++ '#' :: str "v1") =
      some (str "https://github.com/buildkite-plugins/" ++
        (str "docker-compose" ++ '#' :: str "v1")) :=
  (resolvePluginLocation_resolution (str "docker-compose") (str "repo") (str "v1")
    (by decide) (by decide) (by decide) (by decide) (by decide) (by decide)).2.2.2
